import Mathlib

/-!
# Sharded concurrent map (`concurrent_map.h`, `concurrent_map.cpp`)

Shallow embedding of the class template `concurrent_map<Key, Value>` of
`concurrent_map.h` (the class `ConcurrentMap` of `concurrent_map.cpp` is the
same class with `FindIndex` written inline in `operator[]`, and without `at`
and `count`).

* `Key` is an integral type (`static_assert(std::is_integral_v<Key>)`); a key is
  modelled by its mathematical value, an `Int`.
* `std::map<Key, Value>` is an association list kept in strictly ascending key
  order (`StdMap`).
* `std::mutex` is a `Bool` (`true`: held).
* Undefined behaviour (division by zero in `key % number_of_parts_`, indexing
  `data_` out of bounds, locking a mutex that is already held in a sequential
  run) is the result `none`; the C++ exception `std::out_of_range` of
  `std::map::at` is `Except.error Exception.out_of_range`.
-/

/-! ## Definitions -/

/-- The exception thrown by `std::map::at` on a missing key. -/
inductive Exception where
  | out_of_range
  deriving DecidableEq

/-- Model of `std::map<Key, Value>` for an integral `Key`. -/
abbrev StdMap (V : Type) := List (Int × V)

namespace StdMap

/-- The keys of the map in iteration order. -/
def keys {V : Type} (m : StdMap V) : List Int := m.map Prod.fst

/-- Class invariant of `std::map`: strictly ascending keys. -/
def Ordered {V : Type} (m : StdMap V) : Prop := List.Pairwise (· < ·) (keys m)

/-- Lookup of a key (`std::map::find`, as an optional value). -/
def find {V : Type} : StdMap V → Int → Option V
  | [], _ => none
  | (k', v') :: rest, key => if key = k' then some v' else find rest key

/-- Member `std::map::count(key)`: 1 when the key is present, 0 otherwise. -/
def count {V : Type} (m : StdMap V) (key : Int) : Nat :=
  match find m key with
  | some _ => 1
  | none => 0

/-- Member `std::map::at(key)`: the mapped value, or `std::out_of_range`. -/
def at_ {V : Type} (m : StdMap V) (key : Int) : Except Exception V :=
  match find m key with
  | some v => Except.ok v
  | none => Except.error Exception.out_of_range

/-- Member `std::map::insert(value_type)`: inserts at the ordered position; an
element whose key is already present is left as it is. -/
def insert {V : Type} : StdMap V → Int → V → StdMap V
  | [], key, v => [(key, v)]
  | (k', v') :: rest, key, v =>
    if key < k' then (key, v) :: (k', v') :: rest
    else if key = k' then (k', v') :: rest
    else (k', v') :: insert rest key v

/-- Member `std::map::operator[](key)`: inserts `Value()` when the key is absent;
the reference it returns is the slot of `key` in the resulting map. -/
def subscript {V : Type} [Inhabited V] (m : StdMap V) (key : Int) : StdMap V :=
  insert m key default

/-- A write through a `Value&` that refers to the slot of `key`. -/
def assign {V : Type} : StdMap V → Int → V → StdMap V
  | [], _, _ => []
  | (k', v') :: rest, key, v =>
    if key = k' then (k', v) :: rest else (k', v') :: assign rest key v

/-- Member `std::map::insert(first, last)`: inserts the elements of the range one by
one, in order. -/
def insert_range {V : Type} (result : StdMap V) (src : StdMap V) : StdMap V :=
  src.foldl (fun r e => insert r e.1 e.2) result

/-- Member `std::map::size()`. -/
def size {V : Type} (m : StdMap V) : Nat := m.length

end StdMap

/-- The `struct Part`: a mutex and the ordered map it protects. -/
structure concurrent_map.Part (V : Type) where
  part_m_ : Bool
  part_data_ : StdMap V
  deriving DecidableEq

/-- The `struct Access`: the guard holds the mutex of `data_[index]`, and
`ref_to_value` refers to the slot of `key` in `data_[index].part_data_`. -/
structure concurrent_map.Access where
  index : Nat
  key : Int
  deriving DecidableEq

/-- The data members of `concurrent_map<Key, Value>`. -/
structure concurrent_map (V : Type) where
  number_of_parts_ : Nat
  data_ : List (concurrent_map.Part V)
  deriving DecidableEq

/-- Conversion of an integral key to `size_t` (the usual arithmetic conversions
applied to `key % number_of_parts_`): the value modulo `2^64`. -/
def to_size_t (key : Int) : Nat := (key % 2 ^ 64).toNat

namespace concurrent_map

variable {V : Type}

/-- The constructor `concurrent_map(size_t bucket_count)`:
`number_of_parts_(bucket_count), data_(bucket_count)`. -/
def construct (bucket_count : Nat) : concurrent_map V :=
  { number_of_parts_ := bucket_count
    data_ := List.replicate bucket_count { part_m_ := false, part_data_ := [] } }

/-- Member `FindIndex(key)`: `key % number_of_parts_`, computed in `size_t`;
undefined when `number_of_parts_` is zero. -/
def FindIndex (m : concurrent_map V) (key : Int) : Option Nat :=
  if m.number_of_parts_ = 0 then none
  else some (to_size_t key % m.number_of_parts_)

/-- Construction of a `std::lock_guard` on `data_[i].part_m_`. -/
def lock (m : concurrent_map V) (i : Nat) : Option (concurrent_map V) :=
  match m.data_[i]? with
  | none => none
  | some part =>
    if part.part_m_ then none
    else some { m with data_ := m.data_.set i { part with part_m_ := true } }

/-- Destruction of a `std::lock_guard` on `data_[i].part_m_`. -/
def unlock (m : concurrent_map V) (i : Nat) : concurrent_map V :=
  match m.data_[i]? with
  | none => m
  | some part => { m with data_ := m.data_.set i { part with part_m_ := false } }

/-- Member `operator[](key)`: locks the part of the key, then evaluates
`data_[index].part_data_[key]`; the mutex stays held by the returned `Access`. -/
def operator_subscript [Inhabited V] (m : concurrent_map V) (key : Int) :
    Option (concurrent_map V × Access) :=
  match FindIndex m key with
  | none => none
  | some index =>
    match lock m index with
    | none => none
    | some m1 =>
      match m1.data_[index]? with
      | none => none
      | some part =>
        let part1 : Part V := { part with part_data_ := StdMap.subscript part.part_data_ key }
        some ({ m1 with data_ := m1.data_.set index part1 }, { index := index, key := key })

/-- Member `at(key)`: `data_[index].part_data_.at(key)`; no mutex is taken. -/
def at_ (m : concurrent_map V) (key : Int) :
    Option (concurrent_map V × Except Exception V) :=
  match FindIndex m key with
  | none => none
  | some index =>
    match m.data_[index]? with
    | none => none
    | some part => some (m, StdMap.at_ part.part_data_ key)

/-- Member `count(key)`: `data_[index].part_data_.count(key)` converted to `bool`; no
mutex is taken. -/
def count (m : concurrent_map V) (key : Int) : Option (concurrent_map V × Bool) :=
  match FindIndex m key with
  | none => none
  | some index =>
    match m.data_[index]? with
    | none => none
    | some part => some (m, decide (StdMap.count part.part_data_ key ≠ 0))

/-- The loop of `BuildOrdinaryMap`, from index `i` with `todo` iterations left:
lock part `i`, insert its range into `result`, unlock, go on with `i + 1`. -/
def BuildOrdinaryMap_loop (m : concurrent_map V) (i : Nat) (todo : Nat)
    (result : StdMap V) : Option (concurrent_map V × StdMap V) :=
  match todo with
  | 0 => some (m, result)
  | todo + 1 =>
    match lock m i with
    | none => none
    | some m1 =>
      match m1.data_[i]? with
      | none => none
      | some part =>
        BuildOrdinaryMap_loop (unlock m1 i) (i + 1) todo
          (StdMap.insert_range result part.part_data_)

/-- Member `BuildOrdinaryMap()`: `for (size_t i = 0; i < number_of_parts_; ++i)`. -/
def BuildOrdinaryMap (m : concurrent_map V) : Option (concurrent_map V × StdMap V) :=
  BuildOrdinaryMap_loop m 0 m.number_of_parts_ []

end concurrent_map

namespace concurrent_map.Access

variable {V : Type}

/-- Reading `ref_to_value`. -/
def get (a : concurrent_map.Access) (m : concurrent_map V) : Option V :=
  match m.data_[a.index]? with
  | none => none
  | some part => StdMap.find part.part_data_ a.key

/-- Writing `v` through `ref_to_value`. -/
def set (a : concurrent_map.Access) (m : concurrent_map V) (v : V) : Option (concurrent_map V) :=
  match m.data_[a.index]? with
  | none => none
  | some part =>
    match StdMap.find part.part_data_ a.key with
    | none => none
    | some _ =>
      let part1 : Part V := { part with part_data_ := StdMap.assign part.part_data_ a.key v }
      some { m with data_ := m.data_.set a.index part1 }

/-- Destruction of the `Access` (end of the full expression): the guard
releases the mutex. -/
def destroy (a : concurrent_map.Access) (m : concurrent_map V) : concurrent_map V :=
  concurrent_map.unlock m a.index

end concurrent_map.Access

namespace concurrent_map

variable {V : Type}

/-- One full expression on an element obtained through `operator[]`, such as
`++cm[key].ref_to_value`, `cm[key].ref_to_value.push_back('a')` or
`x = cm[key].ref_to_value`: `operator[]` returns the `Access`, the value behind
`ref_to_value` is replaced by `f` of it (`f = id` for a read), and the
temporary `Access` is destroyed at the end of the expression. The result is
the new state and the value left in the slot. -/
def access [Inhabited V] (m : concurrent_map V) (key : Int) (f : V → V) :
    Option (concurrent_map V × V) :=
  match operator_subscript m key with
  | none => none
  | some (m1, a) =>
    match a.get m1 with
    | none => none
    | some v =>
      match a.set m1 (f v) with
      | none => none
      | some m2 => some (a.destroy m2, f v)

/-- The calls a client makes on a map, one per full expression. -/
inductive Op (V : Type) where
  | access (key : Int) (f : V → V)
  | at_ (key : Int)
  | count (key : Int)
  | BuildOrdinaryMap

/-- The state after one client call; an exception thrown by `at` is caught by
the caller and leaves the state it was thrown in. -/
def exec [Inhabited V] (m : concurrent_map V) : Op V → Option (concurrent_map V)
  | Op.access key f => (access m key f).map Prod.fst
  | Op.at_ key => (at_ m key).map Prod.fst
  | Op.count key => (count m key).map Prod.fst
  | Op.BuildOrdinaryMap => (BuildOrdinaryMap m).map Prod.fst

/-- The state after a sequence of client calls, made one after the other. -/
def run [Inhabited V] (m : concurrent_map V) : List (Op V) → Option (concurrent_map V)
  | [] => some m
  | op :: ops =>
    match exec m op with
    | none => none
    | some m1 => run m1 ops

/-- The states a map constructed with `bucket_count` parts goes through. -/
def Reachable [Inhabited V] (bucket_count : Nat) (m : concurrent_map V) : Prop :=
  ∃ ops : List (Op V), run (construct bucket_count) ops = some m

/-- The value stored for `key`, looked up in the part `FindIndex` selects. -/
def contents (m : concurrent_map V) (key : Int) : Option V :=
  match m.data_[to_size_t key % m.number_of_parts_]? with
  | none => none
  | some part => StdMap.find part.part_data_ key

/-- Representation invariant between client calls: as many parts as
`number_of_parts_`, at least one, every mutex free, every part ordered, and
every key stored in the part `FindIndex` selects for it. -/
structure Inv (m : concurrent_map V) : Prop where
  length_eq : m.data_.length = m.number_of_parts_
  pos : 0 < m.number_of_parts_
  free : ∀ (i : Nat) (part : Part V), m.data_[i]? = some part → part.part_m_ = false
  ordered : ∀ (i : Nat) (part : Part V), m.data_[i]? = some part → StdMap.Ordered part.part_data_
  placed : ∀ (i : Nat) (part : Part V), m.data_[i]? = some part →
    ∀ k ∈ StdMap.keys part.part_data_, to_size_t k % m.number_of_parts_ = i

end concurrent_map

/-! ### The test driver of `concurrent_map.cpp` -/

/-- The operator `++` on an `int` value: 32 bits, two's complement. An
increment of `INT_MAX` is undefined in C++; it is modelled by the wrap-around to
`INT_MIN` of the two's complement targets. -/
def int_incr (v : Int) : Int := (v + 1 + 2 ^ 31) % 2 ^ 32 - 2 ^ 31

/-- The keys `iota(begin(updates), end(updates), -key_count / 2)` fills into
`vector<int> updates(key_count)`. -/
def iota_keys (key_count : Nat) : List Int :=
  (List.range key_count).map (fun (j : Nat) => Int.tdiv (-(key_count : Int)) 2 + (j : Int))

/-- The keys one `kernel` of `RunConcurrentUpdates` increments, in order:
`rounds` passes (2 in the source) over its shuffled vector `updates`. -/
def kernel (rounds : Nat) (updates : List Int) : List Int :=
  (List.replicate rounds updates).flatten

/-- The sequences in which the steps of concurrently running threads can take
place, each thread doing its own steps in program order: at every moment some
thread with steps left does its next one. -/
inductive Interleaving {α : Type} : List (List α) → List α → Prop where
  | done (threads : List (List α)) (h : ∀ w ∈ threads, w = []) : Interleaving threads []
  | step (before after : List (List α)) (x : α) (w : List α) (rest : List α)
      (h : Interleaving (before ++ w :: after) rest) :
      Interleaving (before ++ (x :: w) :: after) (x :: rest)

/-- The calls made by a schedule of `++cm[key].ref_to_value` steps. -/
def increments (schedule : List Int) : List (concurrent_map.Op Int) :=
  schedule.map (fun key => concurrent_map.Op.access key int_incr)

/-- An `int`-valued map with three parts that holds the key 0 with the value 1:
the state of `ConcurrentMap<int, int> cm(3)` after `++cm[0].ref_to_value`. -/
def sample_map : concurrent_map Int :=
  { number_of_parts_ := 3
    data_ := [{ part_m_ := false, part_data_ := [(0, 1)] },
              { part_m_ := false, part_data_ := [] },
              { part_m_ := false, part_data_ := [] }] }

/-! ### Mutexes held during an operation -/

namespace concurrent_map

variable {V : Type}

/-- The indices of the parts whose mutex is held, in ascending order. -/
def held (m : concurrent_map V) : List Nat :=
  (List.range m.data_.length).filter (fun i =>
    match m.data_[i]? with
    | some part => part.part_m_
    | none => false)

/-- The states the loop of `BuildOrdinaryMap` goes through, from index `i` with
`todo` iterations left: for every iteration the state in which the guard `c`
holds `data_[i].part_m_`, then the state in which `c` has been destroyed at the
end of the loop body. -/
def BuildOrdinaryMap_states (m : concurrent_map V) (i : Nat) (todo : Nat) :
    Option (List (concurrent_map V)) :=
  match todo with
  | 0 => some []
  | todo + 1 =>
    match lock m i with
    | none => none
    | some m1 =>
      match m1.data_[i]? with
      | none => none
      | some _ =>
        match BuildOrdinaryMap_states (unlock m1 i) (i + 1) todo with
        | none => none
        | some rest => some (m1 :: unlock m1 i :: rest)

end concurrent_map

/-! ### The partition function in the words of the spec -/

/-- The unsigned representation of a key of a signed integral type of at most
64 bits: the key itself when it is not negative, `2^64 + key` when it is. -/
def unsigned_representation (key : Int) : Nat :=
  if 0 ≤ key then key.toNat else (2 ^ 64 + key).toNat

/-- The reference partition function of the spec (section 4.1):
`index = key mod shard_count` over the unsigned representation of the key. -/
def spec_partition (key : Int) (shard_count : Nat) : Nat :=
  unsigned_representation key % shard_count

/-! ### The threads of `TestReadAndWrite` -/

namespace TestReadAndWrite

/-- One step of a thread of `TestReadAndWrite`, a full expression that runs
under the mutex of the part of the key `i`: `cm[i].ref_to_value.push_back('a')`
of an updater, or `result[i] = cm[i].ref_to_value` of a reader. -/
inductive Step where
  | update (i : Nat)
  | read (i : Nat)
  deriving DecidableEq

/-- Whether a step is the copy made by a reader. -/
def Step.isRead : Step → Bool
  | Step.read _ => true
  | Step.update _ => false

/-- The steps of the lambda `updater`: `for (size_t i = 0; i < key_count; ++i)`
(50000 in the source). -/
def updater (key_count : Nat) : List Step := (List.range key_count).map Step.update

/-- The steps of the lambda `reader`, over `result.size()` keys. -/
def reader (key_count : Nat) : List Step := (List.range key_count).map Step.read

/-- The steps of a schedule made one after the other on the map; the result is
the final state and the strings the readers copied, in the order of the
schedule. -/
def run (m : concurrent_map String) :
    List Step → Option (concurrent_map String × List String)
  | [] => some (m, [])
  | Step.update i :: rest =>
    match concurrent_map.access m (i : Int) (fun s => s.push 'a') with
    | none => none
    | some (m1, _) => run m1 rest
  | Step.read i :: rest =>
    match concurrent_map.access m (i : Int) id with
    | none => none
    | some (m1, v) =>
      match run m1 rest with
      | none => none
      | some (m2, observed) => some (m2, v :: observed)

end TestReadAndWrite

/-! ## Lemmas on the model of `std::map` -/

namespace StdMap

variable {V : Type}

theorem keys_cons (e : Int × V) (m : StdMap V) : keys (e :: m) = e.1 :: keys m := rfl

theorem find_eq_none_iff (m : StdMap V) (k : Int) : find m k = none ↔ k ∉ keys m := by
  induction m with
  | nil => simp [find, keys]
  | cons e rest ih =>
    obtain ⟨k', v'⟩ := e
    by_cases h : k = k'
    · simp [find, keys_cons, h]
    · simp [find, keys_cons, h, ih]

theorem find_isSome_iff (m : StdMap V) (k : Int) : (find m k).isSome ↔ k ∈ keys m := by
  rw [← not_iff_not, ← find_eq_none_iff]
  cases find m k <;> simp

theorem mem_keys_insert (m : StdMap V) (k : Int) (v : V) (k' : Int) :
    k' ∈ keys (insert m k v) ↔ k' = k ∨ k' ∈ keys m := by
  induction m with
  | nil => simp [insert, keys]
  | cons e rest ih =>
    obtain ⟨k0, v0⟩ := e
    unfold insert
    split_ifs with h1 h2
    · simp [keys_cons]
    · subst h2
      simp [keys_cons]
    · simp only [keys_cons, List.mem_cons, ih]
      tauto

theorem ordered_insert (m : StdMap V) (k : Int) (v : V) (h : Ordered m) :
    Ordered (insert m k v) := by
  induction m with
  | nil => simp [insert, Ordered, keys]
  | cons e rest ih =>
    obtain ⟨k0, v0⟩ := e
    unfold Ordered at h ih ⊢
    rw [keys_cons, List.pairwise_cons] at h
    unfold insert
    split_ifs with h1 h2
    · rw [keys_cons, keys_cons, List.pairwise_cons, List.pairwise_cons]
      refine ⟨?_, h⟩
      intro a ha
      rcases List.mem_cons.1 ha with rfl | ha
      · exact h1
      · exact lt_trans h1 (h.1 a ha)
    · rw [keys_cons, List.pairwise_cons]
      exact h
    · rw [keys_cons, List.pairwise_cons]
      refine ⟨?_, ih h.2⟩
      intro a ha
      rcases (mem_keys_insert rest k v a).1 ha with rfl | ha
      · simp only at h1 h2 ⊢
        omega
      · exact h.1 a ha

theorem find_insert (m : StdMap V) (k : Int) (v : V) (h : Ordered m) (k' : Int) :
    find (insert m k v) k' = if k' = k then some ((find m k).getD v) else find m k' := by
  induction m with
  | nil =>
    by_cases hk : k' = k <;> simp [insert, find, hk]
  | cons e rest ih =>
    obtain ⟨k0, v0⟩ := e
    unfold Ordered at h ih
    rw [keys_cons, List.pairwise_cons] at h
    have ih := ih h.2
    unfold insert
    by_cases h1 : k < k0
    · have hnot : k ∉ keys rest := fun hm => by
        have := h.1 k hm
        simp only at this
        omega
      have hne : k ≠ k0 := by omega
      by_cases h2 : k' = k
      · subst h2
        simp [find, h1, hne, (find_eq_none_iff rest k').2 hnot]
      · simp [find, h1, h2]
    · by_cases h3 : k = k0
      · subst h3
        by_cases h2 : k' = k <;> simp [find, h2]
      · by_cases h2 : k' = k
        · subst h2
          simp [find, h1, h3, ih]
        · by_cases h6 : k' = k0
          · subst h6
            simp [find, h1, h3, h2]
          · simp [find, h1, h3, h2, h6, ih]

theorem keys_assign (m : StdMap V) (k : Int) (v : V) : keys (assign m k v) = keys m := by
  induction m with
  | nil => rfl
  | cons e rest ih =>
    obtain ⟨k0, v0⟩ := e
    unfold assign
    split_ifs with h
    · rfl
    · rw [keys_cons, keys_cons, ih]

theorem find_assign (m : StdMap V) (k : Int) (v : V) (k' : Int) :
    find (assign m k v) k' = if k' = k then (find m k).map (fun _ => v) else find m k' := by
  induction m with
  | nil => simp [assign, find]
  | cons e rest ih =>
    obtain ⟨k0, v0⟩ := e
    unfold assign
    by_cases h : k = k0
    · subst h
      by_cases h2 : k' = k <;> simp [find, h2]
    · by_cases h2 : k' = k
      · subst h2
        simp [find, h, ih]
      · by_cases h3 : k' = k0
        · subst h3
          simp [find, h, h2]
        · simp [find, h, h2, h3, ih]

theorem mem_iff_find (m : StdMap V) (h : Ordered m) (k : Int) (v : V) :
    (k, v) ∈ m ↔ find m k = some v := by
  induction m with
  | nil => simp [find]
  | cons e rest ih =>
    obtain ⟨k0, v0⟩ := e
    unfold Ordered at h ih
    rw [keys_cons, List.pairwise_cons] at h
    by_cases hk : k = k0
    · subst hk
      have hnot : ∀ w, (k, w) ∉ rest := fun w hm => by
        have := h.1 k (List.mem_map.2 ⟨(k, w), hm, rfl⟩)
        simp only at this
        omega
      simp [find, hnot v, eq_comm]
    · simp [find, hk, ih h.2]

theorem ordered_nodup (m : StdMap V) (h : Ordered m) : m.Nodup := by
  have h1 : (keys m).Nodup := List.Pairwise.imp (fun hab => ne_of_lt hab) h
  exact List.Nodup.of_map _ h1

theorem ext (a b : StdMap V) (ha : Ordered a) (hb : Ordered b)
    (h : ∀ k, find a k = find b k) : a = b := by
  have hperm : List.Perm a b := by
    rw [List.perm_ext_iff_of_nodup (ordered_nodup a ha) (ordered_nodup b hb)]
    rintro ⟨k, v⟩
    rw [mem_iff_find a ha, mem_iff_find b hb, h]
  have hsa : List.Sorted (fun x y : Int × V => x.1 < y.1) a := List.pairwise_map.1 ha
  have hsb : List.Sorted (fun x y : Int × V => x.1 < y.1) b := List.pairwise_map.1 hb
  haveI : IsAntisymm (Int × V) (fun x y => x.1 < y.1) :=
    ⟨fun x y hxy hyx => absurd hxy (not_lt_of_gt hyx)⟩
  exact List.eq_of_perm_of_sorted hperm hsa hsb

theorem ordered_insert_range (src result : StdMap V) (h : Ordered result) :
    Ordered (insert_range result src) := by
  induction src generalizing result with
  | nil => exact h
  | cons e rest ih => exact ih _ (ordered_insert result e.1 e.2 h)

theorem find_insert_range (src result : StdMap V) (h : Ordered result) (k : Int) :
    find (insert_range result src) k = (find result k).orElse (fun _ => find src k) := by
  induction src generalizing result with
  | nil =>
    simp only [insert_range, List.foldl_nil]
    cases find result k <;> simp [find]
  | cons e rest ih =>
    obtain ⟨k0, v0⟩ := e
    have := ih (insert result k0 v0) (ordered_insert result k0 v0 h)
    simp only [insert_range, List.foldl_cons] at this ⊢
    rw [this, find_insert result k0 v0 h]
    by_cases hk : k = k0
    · subst hk
      cases find result k <;> simp [find]
    · cases find result k <;> simp [find, hk]

end StdMap

/-! ## Lemmas on the sharded map -/

namespace concurrent_map

variable {V : Type}

theorem set_same {α : Type} (l : List α) (i : Nat) (a : α) (h : l[i]? = some a) :
    l.set i a = l := by
  induction l generalizing i with
  | nil => rfl
  | cons x xs ih =>
    cases i with
    | zero =>
      simp only [List.getElem?_cons_zero, Option.some.injEq] at h
      simp [h]
    | succ j =>
      simp only [List.getElem?_cons_succ] at h
      simp [ih j h]

theorem FindIndex_eq (m : concurrent_map V) (key : Int) (h : 0 < m.number_of_parts_) :
    FindIndex m key = some (to_size_t key % m.number_of_parts_) := by
  unfold FindIndex
  rw [if_neg (by omega)]

theorem lock_eq (m : concurrent_map V) (i : Nat) (part : Part V)
    (h : m.data_[i]? = some part) (hf : part.part_m_ = false) :
    lock m i = some { m with data_ := m.data_.set i { part with part_m_ := true } } := by
  unfold lock
  rw [h]
  simp [hf]

theorem unlock_lock (m : concurrent_map V) (i : Nat) (part : Part V)
    (h : m.data_[i]? = some part) (hf : part.part_m_ = false) :
    unlock { m with data_ := m.data_.set i { part with part_m_ := true } } i = m := by
  have hi : i < m.data_.length := (List.getElem?_eq_some.1 h).1
  unfold unlock
  simp only [List.getElem?_set_self hi, List.set_set]
  have hp : ({ part_m_ := false, part_data_ := part.part_data_ } : Part V) = part := by
    cases part
    simp only at hf
    simp [hf]
  rw [hp, set_same _ _ _ h]

theorem BuildOrdinaryMap_loop_eq (m : concurrent_map V)
    (hfree : ∀ (i : Nat) (part : Part V), m.data_[i]? = some part → part.part_m_ = false)
    (todo : Nat) : ∀ (i : Nat) (result : StdMap V), i + todo = m.data_.length →
      BuildOrdinaryMap_loop m i todo result = some (m,
        (m.data_.drop i).foldl (fun acc p => StdMap.insert_range acc p.part_data_) result) := by
  induction todo with
  | zero =>
    intro i result hi
    have : m.data_.drop i = [] := List.drop_eq_nil_of_le (by omega)
    simp [BuildOrdinaryMap_loop, this]
  | succ t ih =>
    intro i result hi
    have hlt : i < m.data_.length := by omega
    have hget : m.data_[i]? = some m.data_[i] := List.getElem?_eq_getElem hlt
    have hf := hfree i _ hget
    unfold BuildOrdinaryMap_loop
    rw [lock_eq m i _ hget hf]
    simp only [List.getElem?_set_self hlt]
    rw [unlock_lock m i _ hget hf, ih (i + 1) _ (by omega), List.drop_eq_getElem_cons hlt]
    rfl

theorem BuildOrdinaryMap_eq (m : concurrent_map V)
    (hfree : ∀ (i : Nat) (part : Part V), m.data_[i]? = some part → part.part_m_ = false)
    (hlen : m.data_.length = m.number_of_parts_) :
    BuildOrdinaryMap m = some (m,
      m.data_.foldl (fun acc p => StdMap.insert_range acc p.part_data_) []) := by
  unfold BuildOrdinaryMap
  rw [BuildOrdinaryMap_loop_eq m hfree _ 0 [] (by omega)]
  rfl

theorem ordered_merge (parts : List (Part V)) (result : StdMap V)
    (h : StdMap.Ordered result) :
    StdMap.Ordered (parts.foldl (fun acc p => StdMap.insert_range acc p.part_data_) result) := by
  induction parts generalizing result with
  | nil => exact h
  | cons p rest ih => exact ih _ (StdMap.ordered_insert_range _ _ h)

theorem find_merge (parts : List (Part V)) (result : StdMap V)
    (h : StdMap.Ordered result) (k : Int) :
    StdMap.find (parts.foldl (fun acc p => StdMap.insert_range acc p.part_data_) result) k
      = (StdMap.find result k).orElse
          (fun _ => parts.findSome? (fun p => StdMap.find p.part_data_ k)) := by
  induction parts generalizing result with
  | nil =>
    simp only [List.foldl_nil, List.findSome?_nil]
    cases StdMap.find result k <;> simp
  | cons p rest ih =>
    simp only [List.foldl_cons]
    rw [ih _ (StdMap.ordered_insert_range _ _ h), StdMap.find_insert_range _ _ h,
      List.findSome?_cons]
    cases StdMap.find result k with
    | some v => simp
    | none =>
      cases StdMap.find p.part_data_ k <;> simp

theorem findSome_at {α β : Type} (l : List α) (j : Nat) (f : α → Option β)
    (h : ∀ (i : Nat) (p : α), l[i]? = some p → i ≠ j → f p = none) :
    l.findSome? f = (l[j]?).bind f := by
  induction l generalizing j with
  | nil => rfl
  | cons x xs ih =>
    cases j with
    | zero =>
      have hrest : xs.findSome? f = none := by
        rw [List.findSome?_eq_none_iff]
        intro p hp
        obtain ⟨i, hi, rfl⟩ := List.getElem_of_mem hp
        exact h (i + 1) _ (by simp [List.getElem?_eq_getElem hi]) (by omega)
      rw [List.findSome?_cons]
      cases hx : f x <;> simp [hx, hrest]
    | succ j =>
      have hx : f x = none := h 0 x (by simp) (by omega)
      rw [List.findSome?_cons, hx]
      simp only [List.getElem?_cons_succ]
      exact ih j (fun i p hp hij => h (i + 1) p (by simpa using hp) (by omega))

theorem find_other_part (m : concurrent_map V) (hinv : Inv m) (k : Int) (i : Nat)
    (part : Part V) (h : m.data_[i]? = some part)
    (hi : i ≠ to_size_t k % m.number_of_parts_) : StdMap.find part.part_data_ k = none := by
  rw [StdMap.find_eq_none_iff]
  intro hk
  exact hi (hinv.placed i part h k hk).symm

theorem BuildOrdinaryMap_spec (m : concurrent_map V) (hinv : Inv m) :
    ∃ r, BuildOrdinaryMap m = some (m, r) ∧ StdMap.Ordered r ∧
      ∀ k, StdMap.find r k = contents m k := by
  refine ⟨_, BuildOrdinaryMap_eq m hinv.free hinv.length_eq, ?_, ?_⟩
  · exact ordered_merge _ _ (by simp [StdMap.Ordered, StdMap.keys])
  · intro k
    rw [find_merge _ _ (by simp [StdMap.Ordered, StdMap.keys])]
    rw [findSome_at m.data_ (to_size_t k % m.number_of_parts_) _
      (fun i p hp hi => find_other_part m hinv k i p hp hi)]
    unfold contents
    cases m.data_[to_size_t k % m.number_of_parts_]? <;> simp [StdMap.find]

end concurrent_map

namespace concurrent_map

variable {V : Type}

theorem index_lt (m : concurrent_map V) (hinv : Inv m) (key : Int) :
    to_size_t key % m.number_of_parts_ < m.data_.length := by
  rw [hinv.length_eq]
  exact Nat.mod_lt _ hinv.pos

theorem part_exists (m : concurrent_map V) (hinv : Inv m) (key : Int) :
    ∃ part, m.data_[to_size_t key % m.number_of_parts_]? = some part :=
  ⟨_, List.getElem?_eq_getElem (index_lt m hinv key)⟩

theorem operator_subscript_eq [Inhabited V] (m : concurrent_map V) (hinv : Inv m)
    (key : Int) (part : Part V)
    (h : m.data_[to_size_t key % m.number_of_parts_]? = some part) :
    operator_subscript m key = some
      (concurrent_map.mk m.number_of_parts_
          (m.data_.set (to_size_t key % m.number_of_parts_)
            ⟨true, StdMap.subscript part.part_data_ key⟩),
       ⟨to_size_t key % m.number_of_parts_, key⟩) := by
  have hi := index_lt m hinv key
  unfold operator_subscript
  rw [FindIndex_eq m key hinv.pos]
  simp only
  rw [lock_eq m _ part h (hinv.free _ _ h)]
  simp only [List.getElem?_set_self hi, List.set_set]

theorem access_eq [Inhabited V] (m : concurrent_map V) (hinv : Inv m)
    (key : Int) (f : V → V) (part : Part V)
    (h : m.data_[to_size_t key % m.number_of_parts_]? = some part) :
    access m key f = some
      (concurrent_map.mk m.number_of_parts_
          (m.data_.set (to_size_t key % m.number_of_parts_)
            ⟨false, StdMap.assign (StdMap.subscript part.part_data_ key) key
              (f ((StdMap.find part.part_data_ key).getD default))⟩),
       f ((StdMap.find part.part_data_ key).getD default)) := by
  have hi := index_lt m hinv key
  have hfind : StdMap.find (StdMap.subscript part.part_data_ key) key
      = some ((StdMap.find part.part_data_ key).getD default) := by
    unfold StdMap.subscript
    rw [StdMap.find_insert _ _ _ (hinv.ordered _ _ h)]
    simp
  unfold access
  rw [operator_subscript_eq m hinv key part h]
  simp only [Access.get, Access.set, Access.destroy, unlock, List.getElem?_set_self hi,
    List.set_set, hfind]

theorem count_ne_zero (pd : StdMap V) (key : Int) :
    decide (StdMap.count pd key ≠ 0) = (StdMap.find pd key).isSome := by
  unfold StdMap.count
  split <;> simp [*]

theorem at_eq (m : concurrent_map V) (hinv : Inv m) (key : Int) :
    at_ m key = some (m, match contents m key with
      | some v => Except.ok v
      | none => Except.error Exception.out_of_range) := by
  obtain ⟨part, h⟩ := part_exists m hinv key
  unfold at_ contents
  rw [FindIndex_eq m key hinv.pos]
  simp only [h, StdMap.at_]

theorem count_eq (m : concurrent_map V) (hinv : Inv m) (key : Int) :
    count m key = some (m, (contents m key).isSome) := by
  obtain ⟨part, h⟩ := part_exists m hinv key
  unfold count contents
  rw [FindIndex_eq m key hinv.pos]
  simp only [h, count_ne_zero]

theorem access_spec [Inhabited V] (m : concurrent_map V) (hinv : Inv m)
    (key : Int) (f : V → V) :
    ∃ m1, access m key f = some (m1, f ((contents m key).getD default)) ∧ Inv m1 ∧
      m1.number_of_parts_ = m.number_of_parts_ ∧
      ∀ k, contents m1 k
        = if k = key then some (f ((contents m key).getD default)) else contents m k := by
  obtain ⟨part, h⟩ := part_exists m hinv key
  have hi := index_lt m hinv key
  have hc : contents m key = StdMap.find part.part_data_ key := by
    unfold contents
    rw [h]
  have hord := hinv.ordered _ _ h
  refine ⟨concurrent_map.mk m.number_of_parts_
      (m.data_.set (to_size_t key % m.number_of_parts_)
        ⟨false, StdMap.assign (StdMap.subscript part.part_data_ key) key
          (f ((StdMap.find part.part_data_ key).getD default))⟩), ?_, ?_, rfl, ?_⟩
  · rw [hc]
    exact access_eq m hinv key f part h
  · constructor
    · simp only [List.length_set]
      exact hinv.length_eq
    · exact hinv.pos
    · intro i p hp
      simp only [List.getElem?_set] at hp
      split_ifs at hp with h1
      · cases hp
        rfl
      · exact hinv.free i p hp
    · intro i p hp
      simp only [List.getElem?_set] at hp
      split_ifs at hp with h1
      · cases hp
        unfold StdMap.Ordered
        rw [StdMap.keys_assign]
        exact StdMap.ordered_insert _ _ _ hord
      · exact hinv.ordered i p hp
    · intro i p hp k hk
      simp only [List.getElem?_set] at hp
      split_ifs at hp with h1
      · cases hp
        simp only [StdMap.keys_assign, StdMap.subscript] at hk
        rcases (StdMap.mem_keys_insert _ _ _ _).1 hk with rfl | hk
        · exact h1
        · rw [← h1]
          exact hinv.placed _ _ h k hk
      · exact hinv.placed i p hp k hk
  · intro k
    rw [hc]
    unfold contents
    simp only [List.getElem?_set]
    by_cases hk : k = key
    · subst hk
      simp only [hi, and_self, if_true, StdMap.find_assign, StdMap.subscript]
      rw [StdMap.find_insert _ _ _ hord]
      simp
    · rw [if_neg hk]
      by_cases hidx : to_size_t key % m.number_of_parts_ = to_size_t k % m.number_of_parts_
      · rw [← hidx]
        simp only [hi, and_self, if_true, StdMap.find_assign, if_neg hk, StdMap.subscript, h]
        rw [StdMap.find_insert _ _ _ hord, if_neg hk]
      · simp only [hidx, false_and, if_false]

theorem construct_inv (n : Nat) (hn : 0 < n) : Inv (construct n : concurrent_map V) := by
  constructor
  · simp [construct]
  · exact hn
  · intro i p hp
    simp only [construct, List.getElem?_replicate] at hp
    split_ifs at hp
    cases hp
    rfl
  · intro i p hp
    simp only [construct, List.getElem?_replicate] at hp
    split_ifs at hp
    cases hp
    simp [StdMap.Ordered, StdMap.keys]
  · intro i p hp k hk
    simp only [construct, List.getElem?_replicate] at hp
    split_ifs at hp
    cases hp
    simp [StdMap.keys] at hk

theorem construct_contents (n : Nat) (k : Int) :
    contents (construct n : concurrent_map V) k = none := by
  unfold contents construct
  simp only [List.getElem?_replicate]
  split_ifs <;> rfl

end concurrent_map

namespace concurrent_map

variable {V : Type}

theorem exec_access [Inhabited V] (m : concurrent_map V) (hinv : Inv m)
    (key : Int) (f : V → V) :
    ∃ m1, exec m (Op.access key f) = some m1 ∧ Inv m1 ∧
      m1.number_of_parts_ = m.number_of_parts_ ∧
      ∀ k, contents m1 k
        = if k = key then some (f ((contents m key).getD default)) else contents m k := by
  obtain ⟨m1, h1, h2, h3, h4⟩ := access_spec m hinv key f
  exact ⟨m1, by simp [exec, h1], h2, h3, h4⟩

theorem exec_read_only [Inhabited V] (m : concurrent_map V) (hinv : Inv m) (op : Op V)
    (hop : ∀ key f, op ≠ Op.access key f) : exec m op = some m := by
  cases op with
  | access key f => exact absurd rfl (hop key f)
  | at_ key => simp [exec, at_eq m hinv]
  | count key => simp [exec, count_eq m hinv]
  | BuildOrdinaryMap => simp [exec, BuildOrdinaryMap_eq m hinv.free hinv.length_eq]

theorem exec_inv [Inhabited V] (m : concurrent_map V) (hinv : Inv m) (op : Op V) :
    ∃ m1, exec m op = some m1 ∧ Inv m1 ∧ m1.number_of_parts_ = m.number_of_parts_ := by
  cases op with
  | access key f =>
    obtain ⟨m1, h1, h2, h3, _⟩ := exec_access m hinv key f
    exact ⟨m1, h1, h2, h3⟩
  | at_ key => exact ⟨m, exec_read_only m hinv _ (by simp), hinv, rfl⟩
  | count key => exact ⟨m, exec_read_only m hinv _ (by simp), hinv, rfl⟩
  | BuildOrdinaryMap => exact ⟨m, exec_read_only m hinv _ (by simp), hinv, rfl⟩

theorem run_inv [Inhabited V] (ops : List (Op V)) :
    ∀ (m : concurrent_map V), Inv m →
      ∃ m1, run m ops = some m1 ∧ Inv m1 ∧ m1.number_of_parts_ = m.number_of_parts_ := by
  induction ops with
  | nil => exact fun m hinv => ⟨m, rfl, hinv, rfl⟩
  | cons op rest ih =>
    intro m hinv
    obtain ⟨m1, h1, h2, h3⟩ := exec_inv m hinv op
    obtain ⟨m2, h4, h5, h6⟩ := ih m1 h2
    exact ⟨m2, by simp [run, h1, h4], h5, h6.trans h3⟩

theorem reachable_inv [Inhabited V] (n : Nat) (hn : 0 < n) (m : concurrent_map V)
    (h : Reachable n m) : Inv m ∧ m.number_of_parts_ = n := by
  obtain ⟨ops, hops⟩ := h
  obtain ⟨m1, h1, h2, h3⟩ := run_inv ops (construct n) (construct_inv n hn)
  rw [h1] at hops
  cases hops
  exact ⟨h2, h3⟩

theorem exec_sim [Inhabited V] (a b : concurrent_map V) (ha : Inv a) (hb : Inv b)
    (hc : ∀ k, contents a k = contents b k) (op : Op V) :
    ∃ a1 b1, exec a op = some a1 ∧ exec b op = some b1 ∧ Inv a1 ∧ Inv b1 ∧
      ∀ k, contents a1 k = contents b1 k := by
  cases op with
  | access key f =>
    obtain ⟨a1, h1, h2, _, h4⟩ := exec_access a ha key f
    obtain ⟨b1, g1, g2, _, g4⟩ := exec_access b hb key f
    refine ⟨a1, b1, h1, g1, h2, g2, fun k => ?_⟩
    rw [h4, g4, hc, hc]
  | at_ key =>
    exact ⟨a, b, exec_read_only a ha _ (by simp), exec_read_only b hb _ (by simp), ha, hb, hc⟩
  | count key =>
    exact ⟨a, b, exec_read_only a ha _ (by simp), exec_read_only b hb _ (by simp), ha, hb, hc⟩
  | BuildOrdinaryMap =>
    exact ⟨a, b, exec_read_only a ha _ (by simp), exec_read_only b hb _ (by simp), ha, hb, hc⟩

theorem run_sim [Inhabited V] (ops : List (Op V)) :
    ∀ (a b : concurrent_map V), Inv a → Inv b → (∀ k, contents a k = contents b k) →
      ∃ a1 b1, run a ops = some a1 ∧ run b ops = some b1 ∧ Inv a1 ∧ Inv b1 ∧
        ∀ k, contents a1 k = contents b1 k := by
  induction ops with
  | nil => exact fun a b ha hb hc => ⟨a, b, rfl, rfl, ha, hb, hc⟩
  | cons op rest ih =>
    intro a b ha hb hc
    obtain ⟨a1, b1, h1, h2, h3, h4, h5⟩ := exec_sim a b ha hb hc op
    obtain ⟨a2, b2, g1, g2, g3, g4, g5⟩ := ih a1 b1 h3 h4 h5
    exact ⟨a2, b2, by simp [run, h1, g1], by simp [run, h2, g2], g3, g4, g5⟩

theorem run_access_keys [Inhabited V] (accesses : List (Int × (V → V))) :
    ∀ (m : concurrent_map V), Inv m →
      ∃ m1, run m (accesses.map (fun a => Op.access a.1 a.2)) = some m1 ∧ Inv m1 ∧
        ∀ k, (contents m1 k).isSome
          ↔ ((contents m k).isSome ∨ k ∈ accesses.map Prod.fst) := by
  induction accesses with
  | nil => exact fun m hinv => ⟨m, rfl, hinv, by simp⟩
  | cons a rest ih =>
    intro m hinv
    obtain ⟨m1, h1, h2, _, h4⟩ := exec_access m hinv a.1 a.2
    obtain ⟨m2, g1, g2, g3⟩ := ih m1 h2
    refine ⟨m2, by simp [run, h1, g1], g2, fun k => ?_⟩
    rw [g3, h4]
    by_cases hk : k = a.1
    · simp [hk]
    · simp [hk]

theorem run_increments (schedule : List Int) :
    ∀ (m : concurrent_map Int), Inv m →
      ∃ m1, run m (increments schedule) = some m1 ∧ Inv m1 ∧
        ∀ k, contents m1 k
          = if schedule.count k = 0 then contents m k
            else some (int_incr^[schedule.count k] ((contents m k).getD default)) := by
  induction schedule with
  | nil => exact fun m hinv => ⟨m, rfl, hinv, by simp⟩
  | cons x rest ih =>
    intro m hinv
    obtain ⟨m1, h1, h2, _, h4⟩ := exec_access m hinv x int_incr
    obtain ⟨m2, g1, g2, g3⟩ := ih m1 h2
    refine ⟨m2, by simp [increments, run, h1] at g1 ⊢; exact g1, g2, fun k => ?_⟩
    rw [g3, h4]
    by_cases hk : k = x
    · subst hk
      simp only [List.count_cons_self, if_true, Nat.succ_ne_zero, if_false,
        Option.getD_some]
      split_ifs with hc
      · rw [hc]
        rfl
      · rw [Function.iterate_succ_apply]
    · have hne : (x == k) = false := by simpa using fun h => hk h.symm
      rw [if_neg hk, List.count_cons, hne]
      simp

end concurrent_map

/-! ## Lemmas on the test driver -/

theorem int_incr_iterate (j : Nat) :
    int_incr^[j] 0 = ((j : Int) + 2 ^ 31) % 2 ^ 32 - 2 ^ 31 := by
  induction j with
  | zero => simp
  | succ j ih =>
    rw [Function.iterate_succ_apply', ih]
    unfold int_incr
    push_cast
    omega

theorem int_incr_iterate_small (j : Nat) (h : j < 2 ^ 31) : int_incr^[j] 0 = (j : Int) := by
  rw [int_incr_iterate]
  have h1 : (2 : Nat) ^ 31 = 2147483648 := by norm_num
  rw [h1] at h
  omega

theorem interleaving_perm {α : Type} (threads : List (List α)) (schedule : List α)
    (h : Interleaving threads schedule) : List.Perm schedule threads.flatten := by
  induction h with
  | done threads h =>
    have : threads.flatten = [] := by
      rw [List.flatten_eq_nil_iff]
      exact h
    rw [this]
  | step before after x w rest _ ih =>
    simp only [List.flatten_append, List.flatten_cons, List.cons_append] at ih ⊢
    exact (List.Perm.cons x ih).trans List.perm_middle.symm

theorem count_flatten_const {α : Type} [DecidableEq α] (threads : List (List α)) (k : α)
    (c : Nat) (h : ∀ w ∈ threads, w.count k = c) :
    threads.flatten.count k = threads.length * c := by
  induction threads with
  | nil => simp
  | cons w rest ih =>
    rw [List.flatten_cons, List.count_append, h w (List.mem_cons_self _ _),
      ih (fun w' hw' => h w' (List.mem_cons_of_mem _ hw')), List.length_cons]
    ring

theorem count_kernel (rounds : Nat) (updates : List Int) (k : Int) :
    (kernel rounds updates).count k = rounds * updates.count k := by
  unfold kernel
  rw [count_flatten_const _ k (updates.count k), List.length_replicate]
  intro w hw
  rw [List.eq_of_mem_replicate hw]

theorem interleaving_sequential {α : Type} (threads : List (List α)) :
    Interleaving threads threads.flatten := by
  induction threads with
  | nil => exact Interleaving.done [] (by simp)
  | cons w rest ih =>
    have hidle : ∀ (ws : List (List α)) (s : List α),
        Interleaving ws s → Interleaving ([] :: ws) s := by
      intro ws s hs
      induction hs with
      | done ts h =>
        exact Interleaving.done _ (by
          intro w hw
          rcases List.mem_cons.1 hw with rfl | hw
          · rfl
          · exact h w hw)
      | step before after x w rest _ ih2 =>
        exact Interleaving.step ([] :: before) after x w rest ih2
    induction w with
    | nil => exact hidle _ _ ih
    | cons x w ihw => exact Interleaving.step [] rest x w _ ihw

/-! ## The partition function -/

namespace concurrent_map

variable {V : Type}

/-- C1: for every key `k` (negative keys included) and every shard count
`n >= 1` there is one index `i` with `0 <= i < n` that `FindIndex(k)` returns
on every map with `n` parts, in particular in every state a map constructed
with `n` parts goes through. -/
theorem FindIndex_in_range_and_stable [Inhabited V] (n : Nat) (hn : 0 < n) (k : Int) :
    ∃ i, i < n ∧
      (∀ m : concurrent_map V, m.number_of_parts_ = n → FindIndex m k = some i) ∧
      (∀ m : concurrent_map V, Reachable n m → FindIndex m k = some i) := by
  refine ⟨to_size_t k % n, Nat.mod_lt _ hn, ?_, ?_⟩
  · intro m hm
    rw [FindIndex_eq m k (by omega), hm]
  · intro m hm
    obtain ⟨hinv, hparts⟩ := reachable_inv n hn m hm
    rw [FindIndex_eq m k hinv.pos, hparts]

/-- Witness of C1: three parts, key `-1`. -/
theorem FindIndex_in_range_and_stable_witness :
    0 < 3 ∧ ∃ i, i < 3 ∧
      (∀ m : concurrent_map Int, m.number_of_parts_ = 3 → FindIndex m (-1) = some i) ∧
      (∀ m : concurrent_map Int, Reachable 3 m → FindIndex m (-1) = some i) :=
  ⟨by decide, FindIndex_in_range_and_stable 3 (by decide) (-1)⟩

/-! ## Insert-or-get and read-only lookup -/

theorem count_of_part (n : Nat) (d : List (Part V)) (k : Int) (hpos : 0 < n)
    (part : Part V) (h : d[to_size_t k % n]? = some part) :
    count (concurrent_map.mk n d) k
      = some (concurrent_map.mk n d, (StdMap.find part.part_data_ k).isSome) := by
  unfold count
  rw [FindIndex_eq (concurrent_map.mk n d) k hpos]
  simp only [h, count_ne_zero]

theorem at_of_part (n : Nat) (d : List (Part V)) (k : Int) (hpos : 0 < n)
    (part : Part V) (h : d[to_size_t k % n]? = some part) :
    at_ (concurrent_map.mk n d) k
      = some (concurrent_map.mk n d, StdMap.at_ part.part_data_ k) := by
  unfold at_
  rw [FindIndex_eq (concurrent_map.mk n d) k hpos]
  simp only [h]

/-- C2: on a map with `n >= 1` parts, `operator[](k)` for a key `k` that is
absent (`count(k)` is false) returns an `Access` on the slot of `k` in the part
`FindIndex(k)`, whose `ref_to_value` reads `Value()`; `count(k)` is true from
then on, while the `Access` lives and after it is destroyed, and `at(k)` then
returns `Value()`, though nothing was written. -/
theorem operator_subscript_inserts_default [Inhabited V] (n : Nat) (hn : 0 < n)
    (m : concurrent_map V) (hm : Reachable n m) (k : Int)
    (habsent : count m k = some (m, false)) :
    ∃ m1 a, operator_subscript m k = some (m1, a) ∧
      a.key = k ∧ FindIndex m k = some a.index ∧
      a.get m1 = some default ∧
      count m1 k = some (m1, true) ∧
      count (a.destroy m1) k = some (a.destroy m1, true) ∧
      at_ (a.destroy m1) k = some (a.destroy m1, Except.ok default) := by
  obtain ⟨hinv, _⟩ := reachable_inv n hn m hm
  obtain ⟨part, h⟩ := part_exists m hinv k
  have hi := index_lt m hinv k
  have hnone : StdMap.find part.part_data_ k = none := by
    have hc := count_eq m hinv k
    rw [habsent] at hc
    have hc2 : (contents m k).isSome = false := by
      simpa using (congrArg (fun o => o.map Prod.snd) hc).symm
    unfold contents at hc2
    rw [h] at hc2
    simpa using hc2
  have hfind : StdMap.find (StdMap.subscript part.part_data_ k) k = some default := by
    unfold StdMap.subscript
    rw [StdMap.find_insert _ _ _ (hinv.ordered _ _ h), hnone]
    simp
  refine ⟨_, _, operator_subscript_eq m hinv k part h, rfl, FindIndex_eq m k hinv.pos,
    ?_, ?_, ?_, ?_⟩
  · simp only [Access.get, List.getElem?_set_self hi, hfind]
  · rw [count_of_part m.number_of_parts_ _ k hinv.pos _ (List.getElem?_set_self hi)]
    simp only [hfind, Option.isSome_some]
  · simp only [Access.destroy, unlock, List.getElem?_set_self hi, List.set_set]
    rw [count_of_part m.number_of_parts_ _ k hinv.pos _ (List.getElem?_set_self hi)]
    simp only [hfind, Option.isSome_some]
  · simp only [Access.destroy, unlock, List.getElem?_set_self hi, List.set_set]
    rw [at_of_part m.number_of_parts_ _ k hinv.pos _ (List.getElem?_set_self hi)]
    simp only [StdMap.at_, hfind]

/-- Witness of C2: on `sample_map`, reached by one increment of the key 0, the
absent key `-1` is created with the `int` value 0. -/
theorem operator_subscript_inserts_default_witness :
    0 < 3 ∧ Reachable 3 sample_map ∧ count sample_map (-1) = some (sample_map, false) ∧
    ∃ m1 a, operator_subscript sample_map (-1) = some (m1, a) ∧
      a.key = -1 ∧ FindIndex sample_map (-1) = some a.index ∧
      a.get m1 = some 0 ∧
      count m1 (-1) = some (m1, true) ∧
      count (a.destroy m1) (-1) = some (a.destroy m1, true) ∧
      at_ (a.destroy m1) (-1) = some (a.destroy m1, Except.ok 0) :=
  ⟨by decide, ⟨[Op.access 0 int_incr], by decide⟩, by decide,
    operator_subscript_inserts_default 3 (by decide) sample_map
      ⟨[Op.access 0 int_incr], by decide⟩ (-1) (by decide)⟩

/-- C3: in every state of a map constructed with `n >= 1` parts, for a key `k`
that is not a key of `BuildOrdinaryMap()`, `at(k)` throws `std::out_of_range`
and returns no default, the state after the call is the state before it, and
`count(k)` is false in it. -/
theorem at_absent_throws [Inhabited V] (n : Nat) (hn : 0 < n)
    (m : concurrent_map V) (hm : Reachable n m) (k : Int) :
    ∃ r, BuildOrdinaryMap m = some (m, r) ∧
      (k ∉ StdMap.keys r →
        at_ m k = some (m, Except.error Exception.out_of_range) ∧
        count m k = some (m, false)) := by
  obtain ⟨hinv, _⟩ := reachable_inv n hn m hm
  obtain ⟨r, hr, _, hfind⟩ := BuildOrdinaryMap_spec m hinv
  refine ⟨r, hr, fun hk => ?_⟩
  have hc : contents m k = none := by
    rw [← hfind, StdMap.find_eq_none_iff]
    exact hk
  rw [at_eq m hinv, count_eq m hinv, hc]
  exact ⟨rfl, rfl⟩

/-- Witness of C3: on `sample_map` the key 4 is no key of `BuildOrdinaryMap()`;
`at(4)` throws and `count(4)` is false. -/
theorem at_absent_throws_witness :
    0 < 3 ∧ Reachable 3 sample_map ∧
    BuildOrdinaryMap sample_map = some (sample_map, [(0, 1)]) ∧
    at_ sample_map 4 = some (sample_map, Except.error Exception.out_of_range) ∧
    count sample_map 4 = some (sample_map, false) := by
  have hb : BuildOrdinaryMap sample_map = some (sample_map, [(0, 1)]) := by decide
  obtain ⟨r, hr, h⟩ := at_absent_throws 3 (by decide) sample_map
    ⟨[Op.access 0 int_incr], by decide⟩ 4
  rw [hb] at hr
  cases hr
  exact ⟨by decide, ⟨[Op.access 0 int_incr], by decide⟩, hb, h (by decide)⟩

end concurrent_map

namespace concurrent_map

variable {V : Type}

/-! ## Construction -/

/-- Counterexample to C7: the constructor called with `bucket_count == 0`
reports no error; it produces a map with zero parts, on which
`BuildOrdinaryMap()` runs and returns the empty map. -/
theorem construct_zero_is_accepted :
    (construct 0 : concurrent_map Int) = ⟨0, []⟩ ∧
    (construct 0 : concurrent_map Int).data_.length = 0 ∧
    BuildOrdinaryMap (construct 0 : concurrent_map Int) = some (⟨0, []⟩, []) := by
  decide

/-- C7, amended: the constructor has no error path. For every `bucket_count`,
zero included, it produces a map with `number_of_parts_ == bucket_count` and
that many empty parts with free mutexes; on the map with zero parts
`FindIndex` divides by zero for every key, so `operator[]`, `at` and `count`
are undefined there, while `BuildOrdinaryMap()` returns the empty map. -/
theorem construct_has_no_error_path [Inhabited V] (bucket_count : Nat) (k : Int) :
    (construct bucket_count : concurrent_map V).number_of_parts_ = bucket_count ∧
    (construct bucket_count : concurrent_map V).data_.length = bucket_count ∧
    (∀ part ∈ (construct bucket_count : concurrent_map V).data_,
      part.part_m_ = false ∧ part.part_data_ = []) ∧
    FindIndex (construct 0 : concurrent_map V) k = none ∧
    operator_subscript (construct 0 : concurrent_map V) k = none ∧
    at_ (construct 0 : concurrent_map V) k = none ∧
    count (construct 0 : concurrent_map V) k = none ∧
    BuildOrdinaryMap (construct 0 : concurrent_map V) = some (construct 0, []) := by
  refine ⟨rfl, by simp [construct], ?_, rfl, rfl, rfl, rfl, rfl⟩
  intro part hpart
  rw [List.eq_of_mem_replicate hpart]
  exact ⟨rfl, rfl⟩

/-! ## Lookup against the aggregate view -/

/-- C8: in every state of a map constructed with `n >= 1` parts, for a key `k`
of `BuildOrdinaryMap()`, `at(k)` returns normally, and what it returns is the
value `BuildOrdinaryMap()` holds for `k`. -/
theorem at_present_returns_value [Inhabited V] (n : Nat) (hn : 0 < n)
    (m : concurrent_map V) (hm : Reachable n m) (k : Int) :
    ∃ r, BuildOrdinaryMap m = some (m, r) ∧
      (k ∈ StdMap.keys r →
        ∃ v, (k, v) ∈ r ∧ StdMap.find r k = some v ∧ at_ m k = some (m, Except.ok v)) := by
  obtain ⟨hinv, _⟩ := reachable_inv n hn m hm
  obtain ⟨r, hr, hord, hfind⟩ := BuildOrdinaryMap_spec m hinv
  refine ⟨r, hr, fun hk => ?_⟩
  have hsome := (StdMap.find_isSome_iff r k).2 hk
  obtain ⟨v, hv⟩ := Option.isSome_iff_exists.1 hsome
  refine ⟨v, (StdMap.mem_iff_find r hord k v).2 hv, hv, ?_⟩
  rw [at_eq m hinv, ← hfind, hv]

/-- Witness of C8: on `sample_map` the key 0 is a key of `BuildOrdinaryMap()`
with the value 1, and `at(0)` returns 1. -/
theorem at_present_returns_value_witness :
    0 < 3 ∧ Reachable 3 sample_map ∧
    BuildOrdinaryMap sample_map = some (sample_map, [(0, 1)]) ∧
    ∃ v, ((0 : Int), v) ∈ ([(0, 1)] : StdMap Int) ∧
      StdMap.find ([(0, 1)] : StdMap Int) 0 = some v ∧
      at_ sample_map 0 = some (sample_map, Except.ok v) := by
  have hb : BuildOrdinaryMap sample_map = some (sample_map, [(0, 1)]) := by decide
  obtain ⟨r, hr, h⟩ := at_present_returns_value 3 (by decide) sample_map
    ⟨[Op.access 0 int_incr], by decide⟩ 0
  rw [hb] at hr
  cases hr
  exact ⟨by decide, ⟨[Op.access 0 int_incr], by decide⟩, hb, h (by decide)⟩

/-- C9: in every state of a map constructed with `n >= 1` parts and for every
key `k`, `count(k)` returns, and it returns true exactly when `k` is a key of
`BuildOrdinaryMap()`. -/
theorem count_iff_key_of_BuildOrdinaryMap [Inhabited V] (n : Nat) (hn : 0 < n)
    (m : concurrent_map V) (hm : Reachable n m) (k : Int) :
    ∃ r b, BuildOrdinaryMap m = some (m, r) ∧ count m k = some (m, b) ∧
      (b = true ↔ k ∈ StdMap.keys r) := by
  obtain ⟨hinv, _⟩ := reachable_inv n hn m hm
  obtain ⟨r, hr, _, hfind⟩ := BuildOrdinaryMap_spec m hinv
  refine ⟨r, _, hr, count_eq m hinv k, ?_⟩
  rw [← hfind, StdMap.find_isSome_iff]

/-- Witness of C9: `sample_map` and the key `-7`. -/
theorem count_iff_key_of_BuildOrdinaryMap_witness :
    0 < 3 ∧ Reachable 3 sample_map ∧
    ∃ r b, BuildOrdinaryMap sample_map = some (sample_map, r) ∧
      count sample_map (-7) = some (sample_map, b) ∧
      (b = true ↔ -7 ∈ StdMap.keys r) :=
  ⟨by decide, ⟨[Op.access 0 int_incr], by decide⟩,
    count_iff_key_of_BuildOrdinaryMap 3 (by decide) sample_map
      ⟨[Op.access 0 int_incr], by decide⟩ (-7)⟩

/-- C10: `at(k)` and `count(k)` never mutate. In every map state and for every
key, present or absent, a call that returns (normally or by throwing
`std::out_of_range`) leaves the state it was called in, mutexes included; and
on every state with at least one part and as many parts as `number_of_parts_`
both calls do return, so that `BuildOrdinaryMap()` gives the same result after
them as before. -/
theorem at_and_count_never_mutate (m : concurrent_map V) (k : Int) :
    (∀ m1 res, at_ m k = some (m1, res) → m1 = m) ∧
    (∀ m1 b, count m k = some (m1, b) → m1 = m) ∧
    (0 < m.number_of_parts_ → m.data_.length = m.number_of_parts_ →
      ∃ res b, at_ m k = some (m, res) ∧ count m k = some (m, b) ∧
        (∀ m1, (at_ m k).map Prod.fst = some m1 → BuildOrdinaryMap m1 = BuildOrdinaryMap m) ∧
        (∀ m1, (count m k).map Prod.fst = some m1 →
          BuildOrdinaryMap m1 = BuildOrdinaryMap m)) := by
  refine ⟨?_, ?_, ?_⟩
  · intro m1 res h
    unfold at_ at h
    split at h
    · cases h
    · split at h
      · cases h
      · cases h
        rfl
  · intro m1 b h
    unfold count at h
    split at h
    · cases h
    · split at h
      · cases h
      · cases h
        rfl
  · intro hpos hlen
    have hi : to_size_t k % m.number_of_parts_ < m.data_.length := by
      rw [hlen]
      exact Nat.mod_lt _ hpos
    have hget := List.getElem?_eq_getElem hi
    obtain ⟨n, d⟩ := m
    have h1 := at_of_part n d k hpos _ hget
    have h2 := count_of_part n d k hpos _ hget
    refine ⟨_, _, h1, h2, ?_, ?_⟩
    · intro m1 hm1
      rw [h1] at hm1
      cases hm1
      rfl
    · intro m1 hm1
      rw [h2] at hm1
      cases hm1
      rfl

/-- Witness of C10: a three-part map that holds the key 0, with the mutex of
part 1 held; the absent key 4. -/
theorem at_and_count_never_mutate_witness :
    ∃ res b,
      at_ (⟨3, [⟨false, [(0, 1)]⟩, ⟨true, []⟩, ⟨false, []⟩]⟩ : concurrent_map Int) 4
        = some (⟨3, [⟨false, [(0, 1)]⟩, ⟨true, []⟩, ⟨false, []⟩]⟩, res) ∧
      count (⟨3, [⟨false, [(0, 1)]⟩, ⟨true, []⟩, ⟨false, []⟩]⟩ : concurrent_map Int) 4
        = some (⟨3, [⟨false, [(0, 1)]⟩, ⟨true, []⟩, ⟨false, []⟩]⟩, b) :=
  match (at_and_count_never_mutate
      (⟨3, [⟨false, [(0, 1)]⟩, ⟨true, []⟩, ⟨false, []⟩]⟩ : concurrent_map Int) 4).2.2
      (by decide) (by decide) with
  | ⟨res, b, h1, h2, _⟩ => ⟨res, b, h1, h2⟩

end concurrent_map

namespace concurrent_map

variable {V : Type}

/-! ## The aggregate view after a run -/

/-- C5: for `n >= 1` parts and every finite sequence of `operator[]` accesses
(whatever is written through them) on a newly constructed map, the run
completes and `BuildOrdinaryMap()` then returns as many entries as there are
distinct keys in the sequence: its keys are pairwise distinct, and they are
exactly the keys that were accessed. -/
theorem BuildOrdinaryMap_size_is_distinct_keys [Inhabited V] (n : Nat) (hn : 0 < n)
    (accesses : List (Int × (V → V))) :
    ∃ m r, run (construct n) (accesses.map (fun a => Op.access a.1 a.2)) = some m ∧
      BuildOrdinaryMap m = some (m, r) ∧
      StdMap.size r = (accesses.map Prod.fst).dedup.length ∧
      (StdMap.keys r).Nodup ∧
      ∀ k, k ∈ StdMap.keys r ↔ k ∈ accesses.map Prod.fst := by
  obtain ⟨m, hrun, hinv, hkeys⟩ := run_access_keys accesses (construct n) (construct_inv n hn)
  obtain ⟨r, hr, hord, hfind⟩ := BuildOrdinaryMap_spec m hinv
  have hmem : ∀ k, k ∈ StdMap.keys r ↔ k ∈ accesses.map Prod.fst := by
    intro k
    rw [← StdMap.find_isSome_iff, hfind, hkeys, construct_contents]
    simp
  have hnodup : (StdMap.keys r).Nodup := List.Pairwise.imp (fun hab => ne_of_lt hab) hord
  refine ⟨m, r, hrun, hr, ?_, hnodup, hmem⟩
  have hperm : List.Perm (StdMap.keys r) (accesses.map Prod.fst).dedup := by
    rw [List.perm_ext_iff_of_nodup hnodup (List.nodup_dedup _)]
    intro k
    rw [hmem, List.mem_dedup]
  have hlen := hperm.length_eq
  simpa [StdMap.size, StdMap.keys] using hlen

/-- Witness of C5: four accesses to the three keys -1, 0 and 5 on three parts. -/
theorem BuildOrdinaryMap_size_is_distinct_keys_witness :
    0 < 3 ∧ ∃ m r,
      run (construct 3)
        ([((-1 : Int), int_incr), (0, int_incr), (5, id), (-1, int_incr)].map
          (fun a => Op.access a.1 a.2)) = some m ∧
      BuildOrdinaryMap m = some (m, r) ∧
      StdMap.size r
        = ([((-1 : Int), int_incr), (0, int_incr), (5, id), (-1, int_incr)].map
            Prod.fst).dedup.length ∧
      (StdMap.keys r).Nodup ∧
      ∀ k, k ∈ StdMap.keys r
        ↔ k ∈ [((-1 : Int), int_incr), (0, int_incr), (5, id), (-1, int_incr)].map Prod.fst :=
  ⟨by decide, BuildOrdinaryMap_size_is_distinct_keys 3 (by decide)
    [((-1 : Int), int_incr), (0, int_incr), (5, id), (-1, int_incr)]⟩

/-- C6: shard-count invariance. For every finite sequence of calls
(`operator[]` accesses with the writes made through them, `at`, `count`,
`BuildOrdinaryMap`) and all shard counts `n1 >= 1` and `n2 >= 1`, in particular
1 and 100, the run completes on a newly constructed map of either size, and
`BuildOrdinaryMap()` afterwards returns the same map for both. -/
theorem shard_count_invariance [Inhabited V] (n1 n2 : Nat) (h1 : 0 < n1) (h2 : 0 < n2)
    (ops : List (Op V)) :
    ∃ m1 m2 r, run (construct n1) ops = some m1 ∧ run (construct n2) ops = some m2 ∧
      BuildOrdinaryMap m1 = some (m1, r) ∧ BuildOrdinaryMap m2 = some (m2, r) := by
  obtain ⟨m1, m2, hr1, hr2, hi1, hi2, hc⟩ := run_sim ops (construct n1) (construct n2)
    (construct_inv n1 h1) (construct_inv n2 h2)
    (fun k => by rw [construct_contents, construct_contents])
  obtain ⟨r1, hb1, ho1, hf1⟩ := BuildOrdinaryMap_spec m1 hi1
  obtain ⟨r2, hb2, ho2, hf2⟩ := BuildOrdinaryMap_spec m2 hi2
  have heq : r1 = r2 := StdMap.ext r1 r2 ho1 ho2 (fun k => by rw [hf1, hf2, hc])
  subst heq
  exact ⟨m1, m2, r1, hr1, hr2, hb1, hb2⟩

/-- Witness of C6: one part against one hundred parts. -/
theorem shard_count_invariance_witness :
    0 < 1 ∧ 0 < 100 ∧ ∃ m1 m2 r,
      run (construct 1) [Op.access (-1) int_incr, Op.at_ 7, Op.access 250 int_incr,
        Op.count 3, Op.access (-1) int_incr, Op.BuildOrdinaryMap] = some m1 ∧
      run (construct 100) [Op.access (-1) int_incr, Op.at_ 7, Op.access 250 int_incr,
        Op.count 3, Op.access (-1) int_incr, Op.BuildOrdinaryMap] = some m2 ∧
      BuildOrdinaryMap m1 = some (m1, r) ∧ BuildOrdinaryMap m2 = some (m2, r) :=
  ⟨by decide, by decide, shard_count_invariance 1 100 (by decide) (by decide)
    [Op.access (-1) int_incr, Op.at_ 7, Op.access 250 int_incr,
      Op.count 3, Op.access (-1) int_incr, Op.BuildOrdinaryMap]⟩

end concurrent_map

/-! ## Concurrent increments -/

namespace concurrent_map

theorem schedule_count (keys : List Int) (hkeys : keys.Nodup) (rounds : Nat)
    (workers : List (List Int))
    (hw : ∀ w ∈ workers, ∃ updates, List.Perm updates keys ∧ w = kernel rounds updates)
    (schedule : List Int) (hs : Interleaving workers schedule) (k : Int) :
    schedule.count k = if k ∈ keys then workers.length * rounds else 0 := by
  rw [(interleaving_perm workers schedule hs).count_eq k,
    count_flatten_const workers k (rounds * keys.count k)]
  · split_ifs with hk
    · rw [List.count_eq_one_of_mem hkeys hk, Nat.mul_one]
    · rw [List.count_eq_zero_of_not_mem hk, Nat.mul_zero, Nat.mul_zero]
  · intro w hw1
    obtain ⟨updates, hperm, rfl⟩ := hw w hw1
    rw [count_kernel, hperm.count_eq k]

theorem increments_result (n : Nat) (hn : 0 < n) (schedule : List Int) :
    ∃ m r, run (construct n) (increments schedule) = some m ∧
      BuildOrdinaryMap m = some (m, r) ∧ StdMap.Ordered r ∧
      ∀ k, StdMap.find r k
        = if schedule.count k = 0 then none
          else some ((((schedule.count k : Nat) : Int) + 2 ^ 31) % 2 ^ 32 - 2 ^ 31) := by
  obtain ⟨m, hrun, hinv, hc⟩ := run_increments schedule (construct n) (construct_inv n hn)
  obtain ⟨r, hr, hord, hfind⟩ := BuildOrdinaryMap_spec m hinv
  refine ⟨m, r, hrun, hr, hord, fun k => ?_⟩
  rw [hfind, hc, construct_contents]
  split_ifs with h0
  · rfl
  · have hd : (none : Option Int).getD default = 0 := rfl
    rw [hd, int_incr_iterate]

/-- Counterexample to C4, at two inputs. With no worker at all (`T = 0`,
`R = 2`, the key 0, three parts) `BuildOrdinaryMap()` is empty and maps the key
0 to nothing, not to `T * R = 0`. With `2^30` workers that each increment the
key 0 twice, run one after the other on one part, the `int` value has been
incremented `2^31` times and is `-2147483648`, not `T * R = 2147483648`. -/
theorem no_lost_updates_counterexample :
    (Interleaving ([] : List (List Int)) [] ∧
      ∃ m, run (construct 3) (increments []) = some m ∧
        BuildOrdinaryMap m = some (m, []) ∧
        StdMap.find ([] : StdMap Int) 0 ≠ some ((0 * 2 : Nat) : Int)) ∧
    (Interleaving (List.replicate (2 ^ 30) (kernel 2 [0]))
        (List.replicate (2 ^ 30) (kernel 2 [0])).flatten ∧
      ∃ m r, run (construct 1)
          (increments (List.replicate (2 ^ 30) (kernel 2 [0])).flatten) = some m ∧
        BuildOrdinaryMap m = some (m, r) ∧
        StdMap.find r 0 = some (-2147483648) ∧
        StdMap.find r 0 ≠ some ((2 ^ 30 * 2 : Nat) : Int)) := by
  refine ⟨⟨Interleaving.done [] (by simp), construct 3, by decide, by decide, by decide⟩,
    interleaving_sequential _, ?_⟩
  obtain ⟨m, r, hrun, hr, _, hfind⟩ :=
    increments_result 1 (by decide) (List.replicate (2 ^ 30) (kernel 2 [0])).flatten
  have hcount : (List.replicate (2 ^ 30) (kernel 2 [0])).flatten.count (0 : Int)
      = 2 ^ 30 * 2 := by
    rw [count_flatten_const _ (0 : Int) 2, List.length_replicate]
    intro w hw
    rw [List.eq_of_mem_replicate hw]
    decide
  have h0 := hfind 0
  rw [hcount] at h0
  have hval : StdMap.find r 0 = some (-2147483648) := by
    rw [h0]
    norm_num
  refine ⟨m, r, hrun, hr, hval, ?_⟩
  rw [hval]
  norm_num

/-- C4, amended: no lost updates. For `n >= 1` parts, `T >= 1` workers and
`R >= 1` rounds with `T * R <= 2^31 - 1`, when every worker increments each of
the same pairwise distinct keys `R` times, going `R` times over its own
shuffle of the keys, then after every interleaving of the workers' steps
`++cm[key].ref_to_value` on a newly constructed map, `BuildOrdinaryMap()` has
exactly those keys and maps each of them to `T * R`. -/
theorem no_lost_updates (n : Nat) (hn : 0 < n) (keys : List Int) (hkeys : keys.Nodup)
    (rounds : Nat) (workers : List (List Int))
    (hw : ∀ w ∈ workers, ∃ updates, List.Perm updates keys ∧ w = kernel rounds updates)
    (hT : 0 < workers.length) (hR : 0 < rounds)
    (hsmall : workers.length * rounds < 2 ^ 31)
    (schedule : List Int) (hs : Interleaving workers schedule) :
    ∃ m r, run (construct n) (increments schedule) = some m ∧
      BuildOrdinaryMap m = some (m, r) ∧
      (∀ k ∈ keys, StdMap.find r k = some ((workers.length * rounds : Nat) : Int)) ∧
      (∀ k, k ∈ StdMap.keys r ↔ k ∈ keys) := by
  obtain ⟨m, r, hrun, hr, _, hfind⟩ := increments_result n hn schedule
  have hpos : workers.length * rounds ≠ 0 := Nat.pos_iff_ne_zero.1 (Nat.mul_pos hT hR)
  have hwrap : (((workers.length * rounds : Nat) : Int) + 2 ^ 31) % 2 ^ 32 - 2 ^ 31
      = ((workers.length * rounds : Nat) : Int) :=
    (int_incr_iterate _).symm.trans (int_incr_iterate_small _ hsmall)
  refine ⟨m, r, hrun, hr, fun k hk => ?_, fun k => ?_⟩
  · rw [hfind, schedule_count keys hkeys rounds workers hw schedule hs k, if_pos hk,
      if_neg hpos, hwrap]
  · rw [← StdMap.find_isSome_iff, hfind,
      schedule_count keys hkeys rounds workers hw schedule hs k]
    by_cases hk : k ∈ keys
    · simp [hk, hpos]
    · simp [hk]

/-- Witness of C4: three parts, the keys -1 and 0, two workers with different
shuffles, two rounds each, in an interleaving that alternates between the
workers. -/
theorem no_lost_updates_witness :
    ∃ m r, run (construct 3) (increments [-1, 0, 0, -1, 0, -1, -1, 0]) = some m ∧
      BuildOrdinaryMap m = some (m, r) ∧
      (∀ k ∈ [(-1 : Int), 0],
        StdMap.find r k = some (([[(-1 : Int), 0, -1, 0], [0, -1, 0, -1]].length * 2 : Nat) : Int)) ∧
      (∀ k, k ∈ StdMap.keys r ↔ k ∈ [(-1 : Int), 0]) :=
  no_lost_updates 3 (by decide) [-1, 0] (by decide) 2 [[-1, 0, -1, 0], [0, -1, 0, -1]]
    (by
      intro w hw
      rcases List.mem_cons.1 hw with rfl | hw
      · exact ⟨[-1, 0], List.Perm.refl _, rfl⟩
      · rcases List.mem_cons.1 hw with rfl | hw
        · exact ⟨[0, -1], List.Perm.swap _ _ _, rfl⟩
        · cases hw)
    (by decide) (by decide) (by decide)
    [-1, 0, 0, -1, 0, -1, -1, 0]
    (Interleaving.step [] [[0, -1, 0, -1]] (-1) [0, -1, 0] _
      (Interleaving.step [] [[0, -1, 0, -1]] 0 [-1, 0] _
        (Interleaving.step [[-1, 0]] [] 0 [-1, 0, -1] _
          (Interleaving.step [[-1, 0]] [] (-1) [0, -1] _
            (Interleaving.step [[-1, 0]] [] 0 [-1] _
              (Interleaving.step [[-1, 0]] [] (-1) [] _
                (Interleaving.step [] [[]] (-1) [0] _
                  (Interleaving.step [] [[]] 0 [] _
                    (Interleaving.done [[], []] (by decide))))))))))

theorem iota_keys_nodup (key_count : Nat) : (iota_keys key_count).Nodup := by
  unfold iota_keys
  refine List.Nodup.map ?_ (List.nodup_range key_count)
  intro a b hab
  simp only at hab
  omega

theorem iota_keys_length (key_count : Nat) : (iota_keys key_count).length = key_count := by
  simp [iota_keys]

/-- The assertions of `TestConcurrentUpdate`: three parts, three workers that
each go twice over their own shuffle of the 50000 keys of `iota_keys 50000`;
after every interleaving `result.size()` is 50000 and every value is 6. -/
theorem TestConcurrentUpdate_assertions (u0 u1 u2 : List Int)
    (h0 : List.Perm u0 (iota_keys 50000)) (h1 : List.Perm u1 (iota_keys 50000))
    (h2 : List.Perm u2 (iota_keys 50000)) (schedule : List Int)
    (hs : Interleaving [kernel 2 u0, kernel 2 u1, kernel 2 u2] schedule) :
    ∃ m r, run (construct 3) (increments schedule) = some m ∧
      BuildOrdinaryMap m = some (m, r) ∧ StdMap.size r = 50000 ∧
      ∀ e ∈ r, e.2 = 6 := by
  obtain ⟨m, r, hrun, hr, hord, hfind⟩ := increments_result 3 (by decide) schedule
  have hcount := schedule_count (iota_keys 50000) (iota_keys_nodup 50000) 2
    [kernel 2 u0, kernel 2 u1, kernel 2 u2]
    (by
      intro w hw
      rcases List.mem_cons.1 hw with rfl | hw
      · exact ⟨u0, h0, rfl⟩
      · rcases List.mem_cons.1 hw with rfl | hw
        · exact ⟨u1, h1, rfl⟩
        · rcases List.mem_cons.1 hw with rfl | hw
          · exact ⟨u2, h2, rfl⟩
          · cases hw)
    schedule hs
  have hmem : ∀ k, k ∈ StdMap.keys r ↔ k ∈ iota_keys 50000 := by
    intro k
    rw [← StdMap.find_isSome_iff, hfind, hcount]
    by_cases hk : k ∈ iota_keys 50000
    · simp [hk]
    · simp [hk]
  have hnodup : (StdMap.keys r).Nodup := List.Pairwise.imp (fun hab => ne_of_lt hab) hord
  have hperm : List.Perm (StdMap.keys r) (iota_keys 50000) := by
    rw [List.perm_ext_iff_of_nodup hnodup (iota_keys_nodup 50000)]
    exact hmem
  refine ⟨m, r, hrun, hr, ?_, ?_⟩
  · have hlen := hperm.length_eq
    rw [iota_keys_length] at hlen
    simpa [StdMap.size, StdMap.keys] using hlen
  · rintro ⟨k, v⟩ he
    have hk : k ∈ iota_keys 50000 := (hmem k).1 (List.mem_map.2 ⟨(k, v), he, rfl⟩)
    have hv := (StdMap.mem_iff_find r hord k v).1 he
    rw [hfind, hcount, if_pos hk] at hv
    norm_num at hv
    exact hv.symm

end concurrent_map

/-! ## The aggregate view as the union of the parts -/

namespace concurrent_map

variable {V : Type}

theorem run_construct_zero [Inhabited V] (ops : List (Op V)) (m : concurrent_map V)
    (h : run (construct 0) ops = some m) : m = construct 0 := by
  induction ops with
  | nil =>
    simp only [run, Option.some.injEq] at h
    exact h.symm
  | cons op rest ih =>
    cases op with
    | access key f =>
      have he : exec (construct 0 : concurrent_map V) (Op.access key f) = none := rfl
      simp [run, he] at h
    | at_ key =>
      have he : exec (construct 0 : concurrent_map V) (Op.at_ key) = none := rfl
      simp [run, he] at h
    | count key =>
      have he : exec (construct 0 : concurrent_map V) (Op.count key) = none := rfl
      simp [run, he] at h
    | BuildOrdinaryMap =>
      have he : exec (construct 0 : concurrent_map V) Op.BuildOrdinaryMap
          = some (construct 0) := rfl
      simp only [run, he] at h
      exact ih h

/-- C11: in every state a constructed map goes through (whatever the shard
count), `BuildOrdinaryMap()` returns, leaves the state as it is, and its result
is one map in strictly ascending key order whose entries are exactly the
entries of the parts `0 .. number_of_parts_ - 1`: `(k, v)` is in the result if
and only if it is an entry of some part, with the value that part holds. -/
theorem BuildOrdinaryMap_is_ordered_union [Inhabited V] (n : Nat)
    (m : concurrent_map V) (hm : Reachable n m) :
    ∃ r, BuildOrdinaryMap m = some (m, r) ∧ StdMap.Ordered r ∧
      ∀ k v, (k, v) ∈ r ↔
        ∃ i part, i < m.number_of_parts_ ∧ m.data_[i]? = some part ∧
          (k, v) ∈ part.part_data_ := by
  rcases Nat.eq_zero_or_pos n with h0 | hn
  · subst h0
    obtain ⟨ops, hops⟩ := hm
    have hm0 := run_construct_zero ops m hops
    subst hm0
    refine ⟨[], rfl, by simp [StdMap.Ordered, StdMap.keys], ?_⟩
    intro k v
    constructor
    · intro h
      cases h
    · rintro ⟨i, part, hi, _, _⟩
      exact absurd hi (Nat.not_lt_zero i)
  · obtain ⟨hinv, _⟩ := reachable_inv n hn m hm
    obtain ⟨r, hr, hord, hfind⟩ := BuildOrdinaryMap_spec m hinv
    refine ⟨r, hr, hord, fun k v => ?_⟩
    rw [StdMap.mem_iff_find r hord, hfind]
    constructor
    · intro hc
      obtain ⟨part, hpart⟩ := part_exists m hinv k
      refine ⟨_, part, Nat.mod_lt _ hinv.pos, hpart, ?_⟩
      unfold contents at hc
      rw [hpart] at hc
      exact (StdMap.mem_iff_find _ (hinv.ordered _ _ hpart) k v).2 hc
    · rintro ⟨i, part, _, hpart, hmem⟩
      have hk : k ∈ StdMap.keys part.part_data_ := List.mem_map.2 ⟨(k, v), hmem, rfl⟩
      have hi := hinv.placed i part hpart k hk
      unfold contents
      rw [hi, hpart]
      exact (StdMap.mem_iff_find _ (hinv.ordered _ _ hpart) k v).1 hmem

/-- Witness of C11: on `sample_map` the result is the one entry `(0, 1)` of
part 0. -/
theorem BuildOrdinaryMap_is_ordered_union_witness :
    Reachable 3 sample_map ∧
    BuildOrdinaryMap sample_map = some (sample_map, [(0, 1)]) ∧
    StdMap.Ordered ([(0, 1)] : StdMap Int) ∧
    ∀ k v, (k, v) ∈ ([(0, 1)] : StdMap Int) ↔
      ∃ i part, i < sample_map.number_of_parts_ ∧ sample_map.data_[i]? = some part ∧
        (k, v) ∈ part.part_data_ := by
  have hb : BuildOrdinaryMap sample_map = some (sample_map, [(0, 1)]) := by decide
  obtain ⟨r, hr, hord, h⟩ := BuildOrdinaryMap_is_ordered_union 3 sample_map
    ⟨[Op.access 0 int_incr], by decide⟩
  rw [hb] at hr
  cases hr
  exact ⟨⟨[Op.access 0 int_incr], by decide⟩, hb, hord, h⟩

/-! ## The partition function over the unsigned representation -/

theorem to_size_t_eq_unsigned_representation (k : Int) (hlo : -2 ^ 63 ≤ k)
    (hhi : k < 2 ^ 63) : to_size_t k = unsigned_representation k := by
  unfold to_size_t unsigned_representation
  have h64 : (2 : Int) ^ 64 = 18446744073709551616 := by norm_num
  have h63 : (2 : Int) ^ 63 = 9223372036854775808 := by norm_num
  rw [h63] at hlo hhi
  rw [h64]
  split_ifs with h
  · congr 1
    omega
  · congr 1
    omega

/-- C12: for every key `k` of a signed integral type of at most 64 bits and
every shard count `n >= 1`, on every map with `n` parts `FindIndex(k)` is the
partition function of the spec, `key mod shard_count` over the unsigned
representation of the key: it is `(k mod 2^64) mod n`, which is `k mod n` for
`k >= 0` and `(2^64 + k) mod n` for every negative `k`. -/
theorem FindIndex_is_unsigned_mod (n : Nat) (hn : 0 < n) (m : concurrent_map V)
    (hm : m.number_of_parts_ = n) (k : Int) (hlo : -2 ^ 63 ≤ k) (hhi : k < 2 ^ 63) :
    FindIndex m k = some (spec_partition k n) ∧
    FindIndex m k = some ((k % 2 ^ 64).toNat % n) ∧
    (0 ≤ k → FindIndex m k = some (k.toNat % n)) ∧
    (k < 0 → FindIndex m k = some ((2 ^ 64 + k).toNat % n)) := by
  have hf : FindIndex m k = some (to_size_t k % n) := by
    rw [FindIndex_eq m k (by omega), hm]
  have hu := to_size_t_eq_unsigned_representation k hlo hhi
  refine ⟨?_, hf, ?_, ?_⟩
  · rw [hf, hu]
    rfl
  · intro h0
    rw [hf, hu, unsigned_representation, if_pos h0]
  · intro h0
    rw [hf, hu, unsigned_representation, if_neg (by omega)]

/-- Witness of C12: the key `-1` on three parts goes to part
`(2^64 - 1) mod 3 = 0`, and the key 7 to part 1. -/
theorem FindIndex_is_unsigned_mod_witness :
    FindIndex sample_map (-1) = some (spec_partition (-1) 3) ∧
    FindIndex sample_map (-1) = some 0 ∧ FindIndex sample_map 7 = some 1 ∧
    FindIndex sample_map (-1) = some ((2 ^ 64 + (-1 : Int)).toNat % 3) :=
  ⟨(FindIndex_is_unsigned_mod 3 (by decide) sample_map rfl (-1) (by decide) (by decide)).1,
    by decide, by decide,
    (FindIndex_is_unsigned_mod 3 (by decide) sample_map rfl (-1) (by decide)
      (by decide)).2.2.2 (by decide)⟩

/-! ## Access never fails; the shard invariant -/

/-- C13: in every state of a map constructed with `n >= 1` parts and for every
key `k`, present or absent, positive or negative, `operator[](k)` returns: the
index it computes is `FindIndex(k)`, it is within the bounds of `data_`, and the
`Access` it returns refers to a value slot of `k` that holds a value; any write
through it completes as well. -/
theorem operator_subscript_never_fails [Inhabited V] (n : Nat) (hn : 0 < n)
    (m : concurrent_map V) (hm : Reachable n m) (k : Int) :
    ∃ m1 a v, operator_subscript m k = some (m1, a) ∧
      FindIndex m k = some a.index ∧ a.index < m.data_.length ∧ a.key = k ∧
      a.get m1 = some v ∧
      ∀ f : V → V, ∃ m2, access m k f = some (m2, f v) := by
  obtain ⟨hinv, _⟩ := reachable_inv n hn m hm
  obtain ⟨part, h⟩ := part_exists m hinv k
  have hi := index_lt m hinv k
  have hfind : StdMap.find (StdMap.subscript part.part_data_ k) k
      = some ((StdMap.find part.part_data_ k).getD default) := by
    unfold StdMap.subscript
    rw [StdMap.find_insert _ _ _ (hinv.ordered _ _ h)]
    simp
  refine ⟨_, _, (StdMap.find part.part_data_ k).getD default,
    operator_subscript_eq m hinv k part h, FindIndex_eq m k hinv.pos, hi, rfl, ?_, ?_⟩
  · simp only [Access.get, List.getElem?_set_self hi, hfind]
  · intro f
    exact ⟨_, access_eq m hinv k f part h⟩

/-- Witness of C13: the absent negative key `-5` on `sample_map`. -/
theorem operator_subscript_never_fails_witness :
    0 < 3 ∧ Reachable 3 sample_map ∧
    ∃ m1 a v, operator_subscript sample_map (-5) = some (m1, a) ∧
      FindIndex sample_map (-5) = some a.index ∧ a.index < sample_map.data_.length ∧
      a.key = -5 ∧ a.get m1 = some v ∧
      ∀ f : Int → Int, ∃ m2, access sample_map (-5) f = some (m2, f v) :=
  ⟨by decide, ⟨[Op.access 0 int_incr], by decide⟩,
    operator_subscript_never_fails 3 (by decide) sample_map
      ⟨[Op.access 0 int_incr], by decide⟩ (-5)⟩

/-- C17: the shard invariant. In every state reachable from a map constructed
with `n >= 1` parts by `operator[]`, `at`, `count` and `BuildOrdinaryMap` calls,
`data_` has length `n`, every key stored in part `i` has `FindIndex(k) == i`,
and therefore no key is stored in two different parts. -/
theorem shard_invariant [Inhabited V] (n : Nat) (hn : 0 < n)
    (m : concurrent_map V) (hm : Reachable n m) :
    m.number_of_parts_ = n ∧ m.data_.length = n ∧
    (∀ (i : Nat) (part : Part V) (k : Int), m.data_[i]? = some part →
      k ∈ StdMap.keys part.part_data_ → FindIndex m k = some i) ∧
    (∀ (i j : Nat) (pi pj : Part V) (k : Int), m.data_[i]? = some pi →
      m.data_[j]? = some pj → k ∈ StdMap.keys pi.part_data_ →
      k ∈ StdMap.keys pj.part_data_ → i = j) := by
  obtain ⟨hinv, hparts⟩ := reachable_inv n hn m hm
  refine ⟨hparts, hinv.length_eq.trans hparts, ?_, ?_⟩
  · intro i part k hpart hk
    rw [FindIndex_eq m k hinv.pos, hinv.placed i part hpart k hk]
  · intro i j pi pj k hi hj hki hkj
    rw [← hinv.placed i pi hi k hki, ← hinv.placed j pj hj k hkj]

/-- Witness of C17: the state after accesses to the keys -1, 0, 5 and 2 on
three parts. -/
theorem shard_invariant_witness :
    0 < 3 ∧
    Reachable 3 (⟨3, [⟨false, [(-1, 1), (0, 1)]⟩, ⟨false, []⟩, ⟨false, [(2, 1), (5, 1)]⟩]⟩ :
      concurrent_map Int) ∧
    (∀ (i j : Nat) (pi pj : Part Int) (k : Int),
      [(⟨false, [(-1, 1), (0, 1)]⟩ : Part Int), ⟨false, []⟩,
        ⟨false, [(2, 1), (5, 1)]⟩][i]? = some pi →
      [(⟨false, [(-1, 1), (0, 1)]⟩ : Part Int), ⟨false, []⟩,
        ⟨false, [(2, 1), (5, 1)]⟩][j]? = some pj →
      k ∈ StdMap.keys pi.part_data_ → k ∈ StdMap.keys pj.part_data_ → i = j) :=
  ⟨by decide, ⟨increments [-1, 0, 5, 2], by decide⟩,
    (shard_invariant 3 (by decide)
      (⟨3, [⟨false, [(-1, 1), (0, 1)]⟩, ⟨false, []⟩, ⟨false, [(2, 1), (5, 1)]⟩]⟩ :
        concurrent_map Int)
      ⟨increments [-1, 0, 5, 2], by decide⟩).2.2.2⟩

end concurrent_map

/-! ## Round trip, frame and idempotence of access -/

namespace StdMap

variable {V : Type}

theorem insert_present (m : StdMap V) (h : Ordered m) (k : Int) (v d : V)
    (hk : find m k = some v) : insert m k d = m := by
  refine ext _ _ (ordered_insert m k d h) h (fun k' => ?_)
  rw [find_insert m k d h]
  split_ifs with h1
  · rw [h1, hk]
    rfl
  · rfl

theorem assign_same (m : StdMap V) (h : Ordered m) (k : Int) (v : V)
    (hk : find m k = some v) : assign m k v = m := by
  have ho : Ordered (assign m k v) := by
    unfold Ordered
    rw [keys_assign]
    exact h
  refine ext _ _ ho h (fun k' => ?_)
  rw [find_assign]
  split_ifs with h1
  · rw [h1, hk]
    rfl
  · rfl

end StdMap

namespace concurrent_map

variable {V : Type}

theorem contents_of_at [Inhabited V] (m : concurrent_map V) (hinv : Inv m) (k : Int) (v : V)
    (h : at_ m k = some (m, Except.ok v)) : contents m k = some v := by
  rw [at_eq m hinv] at h
  cases hc : contents m k with
  | none =>
    rw [hc] at h
    simp at h
  | some w =>
    rw [hc] at h
    simp only [Option.some.injEq, Prod.mk.injEq, Except.ok.injEq, true_and] at h
    rw [h]

theorem operator_subscript_present [Inhabited V] (m : concurrent_map V) (hinv : Inv m)
    (k : Int) (v : V) (hc : contents m k = some v) :
    ∃ m1 a, operator_subscript m k = some (m1, a) ∧ a.get m1 = some v ∧
      m1.data_.map Part.part_data_ = m.data_.map Part.part_data_ ∧
      a.destroy m1 = m := by
  obtain ⟨part, h⟩ := part_exists m hinv k
  have hi := index_lt m hinv k
  have hfind : StdMap.find part.part_data_ k = some v := by
    unfold contents at hc
    rw [h] at hc
    exact hc
  have hsub : StdMap.subscript part.part_data_ k = part.part_data_ :=
    StdMap.insert_present _ (hinv.ordered _ _ h) k v default hfind
  have hpart : (⟨false, part.part_data_⟩ : Part V) = part := by
    have hf := hinv.free _ _ h
    cases part
    simp only at hf
    simp [hf]
  refine ⟨_, _, operator_subscript_eq m hinv k part h, ?_, ?_, ?_⟩
  · simp only [Access.get, List.getElem?_set_self hi, hsub, hfind]
  · simp only [List.map_set, hsub]
    exact set_same _ _ _ (by rw [List.getElem?_map, h]; rfl)
  · simp only [Access.destroy, unlock, List.getElem?_set_self hi, List.set_set, hsub, hpart]
    rw [set_same _ _ _ h]

theorem access_id_present [Inhabited V] (m : concurrent_map V) (hinv : Inv m)
    (k : Int) (v : V) (hc : contents m k = some v) : access m k id = some (m, v) := by
  obtain ⟨part, h⟩ := part_exists m hinv k
  have hfind : StdMap.find part.part_data_ k = some v := by
    unfold contents at hc
    rw [h] at hc
    exact hc
  have hsub : StdMap.subscript part.part_data_ k = part.part_data_ :=
    StdMap.insert_present _ (hinv.ordered _ _ h) k v default hfind
  have hpart : (⟨false, part.part_data_⟩ : Part V) = part := by
    have hf := hinv.free _ _ h
    cases part
    simp only at hf
    simp [hf]
  rw [access_eq m hinv k id part h, hfind, hsub]
  simp only [Option.getD_some, id_eq]
  rw [StdMap.assign_same _ (hinv.ordered _ _ h) k v hfind, hpart, set_same _ _ _ h]

/-- C18: write-read round trip. In every state of a map constructed with
`n >= 1` parts, for every key `k`, present or not, and every value `v`, the
expression `cm[k].ref_to_value = v` completes: `operator[](k)` returns an
`Access`, `v` is written through it and the `Access` is destroyed; afterwards
`at(k)` returns `v`, `count(k)` is true and `BuildOrdinaryMap()` maps `k` to
`v`. -/
theorem write_read_round_trip [Inhabited V] (n : Nat) (hn : 0 < n)
    (m : concurrent_map V) (hm : Reachable n m) (k : Int) (v : V) :
    ∃ m0 a m2, operator_subscript m k = some (m0, a) ∧ a.set m0 v = some m2 ∧
      access m k (fun _ => v) = some (a.destroy m2, v) ∧
      at_ (a.destroy m2) k = some (a.destroy m2, Except.ok v) ∧
      count (a.destroy m2) k = some (a.destroy m2, true) ∧
      ∃ r, BuildOrdinaryMap (a.destroy m2) = some (a.destroy m2, r) ∧
        StdMap.find r k = some v ∧ (k, v) ∈ r := by
  obtain ⟨hinv, _⟩ := reachable_inv n hn m hm
  obtain ⟨part, h⟩ := part_exists m hinv k
  have hi := index_lt m hinv k
  have hfind : StdMap.find (StdMap.subscript part.part_data_ k) k
      = some ((StdMap.find part.part_data_ k).getD default) := by
    unfold StdMap.subscript
    rw [StdMap.find_insert _ _ _ (hinv.ordered _ _ h)]
    simp
  obtain ⟨m1, hacc, hinv1, _, hcont⟩ := access_spec m hinv k (fun _ => v)
  have hm1 : m1 = concurrent_map.mk m.number_of_parts_
      (m.data_.set (to_size_t k % m.number_of_parts_)
        ⟨false, StdMap.assign (StdMap.subscript part.part_data_ k) k v⟩) := by
    have h2 := access_eq m hinv k (fun _ => v) part h
    rw [hacc] at h2
    simp only [Option.some.injEq, Prod.mk.injEq, and_true] at h2
    exact h2
  have hck : contents m1 k = some v := by
    rw [hcont, if_pos rfl]
  obtain ⟨r, hr, hord, hfr⟩ := BuildOrdinaryMap_spec m1 hinv1
  refine ⟨_, _, concurrent_map.mk m.number_of_parts_
      (m.data_.set (to_size_t k % m.number_of_parts_)
        ⟨true, StdMap.assign (StdMap.subscript part.part_data_ k) k v⟩),
    operator_subscript_eq m hinv k part h, ?_, ?_⟩
  · simp only [Access.set, List.getElem?_set_self hi, hfind, List.set_set]
  · have hd : Access.destroy ⟨to_size_t k % m.number_of_parts_, k⟩
        (concurrent_map.mk m.number_of_parts_
          (m.data_.set (to_size_t k % m.number_of_parts_)
            ⟨true, StdMap.assign (StdMap.subscript part.part_data_ k) k v⟩)) = m1 := by
      rw [hm1]
      simp only [Access.destroy, unlock, List.getElem?_set_self hi, List.set_set]
    rw [hd]
    refine ⟨hacc, ?_, ?_, r, hr, ?_, ?_⟩
    · rw [at_eq m1 hinv1, hck]
    · rw [count_eq m1 hinv1, hck]
      rfl
    · rw [hfr, hck]
    · rw [StdMap.mem_iff_find r hord, hfr, hck]

/-- Witness of C18: the value 7 written to the absent key `-1` of
`sample_map`. -/
theorem write_read_round_trip_witness :
    0 < 3 ∧ Reachable 3 sample_map ∧
    ∃ m0 a m2, operator_subscript sample_map (-1) = some (m0, a) ∧
      a.set m0 7 = some m2 ∧
      access sample_map (-1) (fun _ => 7) = some (a.destroy m2, 7) ∧
      at_ (a.destroy m2) (-1) = some (a.destroy m2, Except.ok 7) ∧
      count (a.destroy m2) (-1) = some (a.destroy m2, true) ∧
      ∃ r, BuildOrdinaryMap (a.destroy m2) = some (a.destroy m2, r) ∧
        StdMap.find r (-1) = some 7 ∧ ((-1 : Int), (7 : Int)) ∈ r :=
  ⟨by decide, ⟨[Op.access 0 int_incr], by decide⟩,
    write_read_round_trip 3 (by decide) sample_map
      ⟨[Op.access 0 int_incr], by decide⟩ (-1) 7⟩

/-- C19: frame of access. In every state of a map constructed with `n >= 1`
parts and for distinct keys `k` and `k'`, in the same part or not, an
`operator[](k)` with any write `f` through the returned reference leaves what
`at(k')`, `count(k')` and `BuildOrdinaryMap()` tell about `k'` as it was. -/
theorem access_frame [Inhabited V] (n : Nat) (hn : 0 < n)
    (m : concurrent_map V) (hm : Reachable n m) (k k' : Int) (hne : k' ≠ k) (f : V → V) :
    ∃ m1 w, access m k f = some (m1, w) ∧
      (∃ res, at_ m k' = some (m, res) ∧ at_ m1 k' = some (m1, res)) ∧
      (∃ b, count m k' = some (m, b) ∧ count m1 k' = some (m1, b)) ∧
      (∃ r r1, BuildOrdinaryMap m = some (m, r) ∧ BuildOrdinaryMap m1 = some (m1, r1) ∧
        StdMap.find r1 k' = StdMap.find r k') := by
  obtain ⟨hinv, _⟩ := reachable_inv n hn m hm
  obtain ⟨m1, hacc, hinv1, _, hcont⟩ := access_spec m hinv k f
  have hc : contents m1 k' = contents m k' := by
    rw [hcont, if_neg hne]
  obtain ⟨r, hr, _, hfr⟩ := BuildOrdinaryMap_spec m hinv
  obtain ⟨r1, hr1, _, hfr1⟩ := BuildOrdinaryMap_spec m1 hinv1
  refine ⟨m1, _, hacc, ⟨_, at_eq m hinv k', ?_⟩, ⟨_, count_eq m hinv k', ?_⟩,
    r, r1, hr, hr1, ?_⟩
  · rw [at_eq m1 hinv1, hc]
  · rw [count_eq m1 hinv1, hc]
  · rw [hfr1, hfr, hc]

/-- Witness of C19: on `sample_map`, a write to the key 3 (part 0, the part of
the key 0) and a write to the key 1 (part 1) both leave the key 0 as it was. -/
theorem access_frame_witness :
    (∃ m1 w, access sample_map 3 (fun _ => 9) = some (m1, w) ∧
      (∃ res, at_ sample_map 0 = some (sample_map, res) ∧ at_ m1 0 = some (m1, res)) ∧
      (∃ b, count sample_map 0 = some (sample_map, b) ∧ count m1 0 = some (m1, b)) ∧
      (∃ r r1, BuildOrdinaryMap sample_map = some (sample_map, r) ∧
        BuildOrdinaryMap m1 = some (m1, r1) ∧ StdMap.find r1 0 = StdMap.find r 0)) ∧
    (∃ m1 w, access sample_map 1 (fun _ => 9) = some (m1, w) ∧
      (∃ res, at_ sample_map 0 = some (sample_map, res) ∧ at_ m1 0 = some (m1, res)) ∧
      (∃ b, count sample_map 0 = some (sample_map, b) ∧ count m1 0 = some (m1, b)) ∧
      (∃ r r1, BuildOrdinaryMap sample_map = some (sample_map, r) ∧
        BuildOrdinaryMap m1 = some (m1, r1) ∧ StdMap.find r1 0 = StdMap.find r 0)) :=
  ⟨access_frame 3 (by decide) sample_map ⟨[Op.access 0 int_incr], by decide⟩ 3 0
      (by decide) (fun _ => 9),
    access_frame 3 (by decide) sample_map ⟨[Op.access 0 int_incr], by decide⟩ 1 0
      (by decide) (fun _ => 9)⟩

/-- C20: access to a present key does not reset it. In every state of a map
constructed with `n >= 1` parts, for a key `k` that `at(k)` finds with the
value `v`, `operator[](k)` returns an `Access` whose `ref_to_value` reads `v`,
the contents of all parts are the ones before the call, and once the `Access`
is destroyed the whole state is the one before the call; and for
every key, present or not, an access without a write made twice leaves the map
that it leaves when made once. -/
theorem access_present_is_identity [Inhabited V] (n : Nat) (hn : 0 < n)
    (m : concurrent_map V) (hm : Reachable n m) (k : Int) :
    (∀ v, at_ m k = some (m, Except.ok v) →
      (∃ m1 a, operator_subscript m k = some (m1, a) ∧ a.get m1 = some v ∧
        m1.data_.map Part.part_data_ = m.data_.map Part.part_data_ ∧
        a.destroy m1 = m) ∧
      access m k id = some (m, v)) ∧
    (∃ m1, run m [Op.access k id] = some m1 ∧
      run m [Op.access k id, Op.access k id] = some m1) := by
  obtain ⟨hinv, _⟩ := reachable_inv n hn m hm
  refine ⟨fun v hv => ?_, ?_⟩
  · have hc := contents_of_at m hinv k v hv
    exact ⟨operator_subscript_present m hinv k v hc, access_id_present m hinv k v hc⟩
  · obtain ⟨m1, hacc, hinv1, _, hcont⟩ := access_spec m hinv k id
    have hc1 : contents m1 k = some ((contents m k).getD default) := by
      rw [hcont, if_pos rfl]
      rfl
    have h2 := access_id_present m1 hinv1 k _ hc1
    refine ⟨m1, ?_, ?_⟩
    · simp [run, exec, hacc]
    · simp [run, exec, hacc, h2]

/-- Witness of C20: the present key 0 of `sample_map`, whose value is 1. -/
theorem access_present_is_identity_witness :
    0 < 3 ∧ Reachable 3 sample_map ∧ at_ sample_map 0 = some (sample_map, Except.ok 1) ∧
    (∃ m1 a, operator_subscript sample_map 0 = some (m1, a) ∧ a.get m1 = some 1 ∧
      m1.data_.map Part.part_data_ = sample_map.data_.map Part.part_data_ ∧
      a.destroy m1 = sample_map) ∧
    access sample_map 0 id = some (sample_map, 1) ∧
    (∃ m1, run sample_map [Op.access 0 id] = some m1 ∧
      run sample_map [Op.access 0 id, Op.access 0 id] = some m1) :=
  ⟨by decide, ⟨[Op.access 0 int_incr], by decide⟩, rfl,
    ((access_present_is_identity 3 (by decide) sample_map
      ⟨[Op.access 0 int_incr], by decide⟩ 0).1 1 rfl).1,
    ((access_present_is_identity 3 (by decide) sample_map
      ⟨[Op.access 0 int_incr], by decide⟩ 0).1 1 rfl).2,
    (access_present_is_identity 3 (by decide) sample_map
      ⟨[Op.access 0 int_incr], by decide⟩ 0).2⟩

end concurrent_map

/-! ## Mutexes held by an operation -/

namespace concurrent_map

variable {V : Type}

theorem filter_range_singleton (p : Nat → Bool) (n i : Nat) (hi : i < n) (hp : p i = true)
    (hne : ∀ j, j < n → j ≠ i → p j = false) : (List.range n).filter p = [i] := by
  induction n with
  | zero => omega
  | succ n ih =>
    rw [List.range_succ, List.filter_append]
    by_cases hin : i = n
    · subst hin
      have hnil : (List.range i).filter p = [] := by
        rw [List.filter_eq_nil_iff]
        intro j hj
        have hlt := List.mem_range.1 hj
        rw [hne j (by omega) (by omega)]
        simp
      rw [hnil]
      simp [hp]
    · have hn : p n = false := hne n (by omega) (fun h => hin h.symm)
      rw [ih (by omega) (fun j hj hji => hne j (by omega) hji)]
      simp [hn]

theorem held_free (m : concurrent_map V)
    (hfree : ∀ (i : Nat) (part : Part V), m.data_[i]? = some part → part.part_m_ = false) :
    held m = [] := by
  unfold held
  rw [List.filter_eq_nil_iff]
  intro i _
  cases h : m.data_[i]? with
  | none => simp
  | some part => simp [hfree i part h]

theorem held_locked (n : Nat) (d : List (Part V)) (i : Nat) (pd : StdMap V)
    (hi : i < d.length)
    (hfree : ∀ (j : Nat) (part : Part V), d[j]? = some part → part.part_m_ = false) :
    held (concurrent_map.mk n (d.set i ⟨true, pd⟩)) = [i] := by
  unfold held
  simp only [List.length_set]
  refine filter_range_singleton _ d.length i hi ?_ ?_
  · simp only [List.getElem?_set_self hi]
  · intro j _ hji
    simp only [List.getElem?_set_ne (Ne.symm hji)]
    cases h : d[j]? with
    | none => rfl
    | some part => exact hfree j part h

theorem BuildOrdinaryMap_states_eq (m : concurrent_map V)
    (hfree : ∀ (i : Nat) (part : Part V), m.data_[i]? = some part → part.part_m_ = false)
    (todo : Nat) : ∀ (i : Nat), i + todo = m.data_.length →
      ∃ states, BuildOrdinaryMap_states m i todo = some states ∧
        states.map held = (List.range' i todo).flatMap (fun j => [[j], []]) ∧
        (states.getLast?).getD m = m := by
  induction todo with
  | zero =>
    intro i _
    exact ⟨[], rfl, rfl, rfl⟩
  | succ t ih =>
    intro i hi
    have hlt : i < m.data_.length := by omega
    have hget : m.data_[i]? = some m.data_[i] := List.getElem?_eq_getElem hlt
    have hf := hfree i _ hget
    obtain ⟨rest, hrest, hheld, hlast⟩ := ih (i + 1) (by omega)
    refine ⟨concurrent_map.mk m.number_of_parts_
        (m.data_.set i ⟨true, m.data_[i].part_data_⟩) :: m :: rest, ?_, ?_, ?_⟩
    · unfold BuildOrdinaryMap_states
      rw [lock_eq m i _ hget hf]
      simp only [List.getElem?_set_self hlt]
      rw [unlock_lock m i _ hget hf, hrest]
    · simp only [List.map_cons, hheld, List.range'_succ, List.flatMap_cons, List.cons_append,
        List.nil_append]
      rw [held_locked m.number_of_parts_ m.data_ i _ hlt hfree, held_free m hfree]
    · cases rest with
      | nil => rfl
      | cons s rest =>
        simp only [List.getLast?_cons_cons] at hlast ⊢
        exact hlast

theorem BuildOrdinaryMap_states_isSome (todo : Nat) :
    ∀ (m : concurrent_map V) (i : Nat) (result : StdMap V),
      (BuildOrdinaryMap_states m i todo).isSome
        = (BuildOrdinaryMap_loop m i todo result).isSome := by
  induction todo with
  | zero => exact fun m i result => rfl
  | succ t ih =>
    intro m i result
    unfold BuildOrdinaryMap_states BuildOrdinaryMap_loop
    cases lock m i with
    | none => rfl
    | some m1 =>
      simp only
      cases m1.data_[i]? with
      | none => rfl
      | some part =>
        simp only
        rw [← ih (unlock m1 i) (i + 1) (StdMap.insert_range result part.part_data_)]
        cases BuildOrdinaryMap_states (unlock m1 i) (i + 1) t <;> rfl

/-- C15: no operation holds two mutexes at a time. In every state of a map
constructed with `n >= 1` parts no mutex is held between the calls;
`operator[](k)` leaves exactly one mutex held, that of the part `FindIndex(k)`,
which the destruction of the `Access` releases; and the states
`BuildOrdinaryMap()` goes through hold the mutex of part 0 alone, then none,
then that of part 1 alone, then none, and so on up to part `n - 1`: the mutex
of part `i` is released before that of part `i + 1` is acquired. -/
theorem one_mutex_at_a_time [Inhabited V] (n : Nat) (hn : 0 < n)
    (m : concurrent_map V) (hm : Reachable n m) :
    held m = [] ∧
    (∀ k, ∃ m1 a, operator_subscript m k = some (m1, a) ∧
      FindIndex m k = some a.index ∧ held m1 = [a.index] ∧ held (a.destroy m1) = []) ∧
    (∃ states, BuildOrdinaryMap_states m 0 m.number_of_parts_ = some states ∧
      states.map held = (List.range n).flatMap (fun i => [[i], []]) ∧
      (∀ s ∈ states, (held s).length ≤ 1) ∧
      (BuildOrdinaryMap m).isSome = true) := by
  obtain ⟨hinv, hparts⟩ := reachable_inv n hn m hm
  refine ⟨held_free m hinv.free, fun k => ?_, ?_⟩
  · obtain ⟨part, h⟩ := part_exists m hinv k
    have hi := index_lt m hinv k
    refine ⟨_, _, operator_subscript_eq m hinv k part h, FindIndex_eq m k hinv.pos,
      held_locked _ _ _ _ hi hinv.free, ?_⟩
    simp only [Access.destroy, unlock, List.getElem?_set_self hi, List.set_set]
    apply held_free
    intro j p hp
    simp only [List.getElem?_set] at hp
    split_ifs at hp with h1
    · cases hp
      rfl
    · exact hinv.free j p hp
  · obtain ⟨states, hst, hheld, _⟩ :=
      BuildOrdinaryMap_states_eq m hinv.free m.number_of_parts_ 0
        (by rw [hinv.length_eq]; omega)
    rw [← List.range_eq_range', hparts] at hheld
    refine ⟨states, hst, hheld, ?_, ?_⟩
    · intro s hs
      have hmem : held s ∈ states.map held := List.mem_map_of_mem held hs
      rw [hheld, List.mem_flatMap] at hmem
      obtain ⟨i, _, hi⟩ := hmem
      rcases List.mem_cons.1 hi with h1 | h1
      · rw [h1]
        exact Nat.le_refl 1
      · rcases List.mem_cons.1 h1 with h2 | h2
        · rw [h2]
          exact Nat.zero_le 1
        · cases h2
    · rw [BuildOrdinaryMap_eq m hinv.free hinv.length_eq]
      rfl

/-- Witness of C15: `sample_map`; `operator[](7)` holds the mutex of part 1
alone, and `BuildOrdinaryMap()` holds those of parts 0, 1 and 2 in turn. -/
theorem one_mutex_at_a_time_witness :
    0 < 3 ∧ Reachable 3 sample_map ∧ held sample_map = [] ∧
    (∃ m1 a, operator_subscript sample_map 7 = some (m1, a) ∧
      FindIndex sample_map 7 = some a.index ∧ held m1 = [a.index] ∧
      held (a.destroy m1) = []) ∧
    (∃ states, BuildOrdinaryMap_states sample_map 0 sample_map.number_of_parts_
        = some states ∧
      states.map held = [[0], [], [1], [], [2], []] ∧
      (∀ s ∈ states, (held s).length ≤ 1) ∧
      (BuildOrdinaryMap sample_map).isSome = true) := by
  have h := one_mutex_at_a_time 3 (by decide) sample_map
    ⟨[Op.access 0 int_incr], by decide⟩
  exact ⟨by decide, ⟨[Op.access 0 int_incr], by decide⟩, h.1, h.2.1 7, h.2.2⟩

/-- C16, the code at the failing input: after `auto a = cm[0];` on a new
three-part `int` map the mutex of part 0 is held by the `Access`, so that a
second `operator[](0)` and `BuildOrdinaryMap()` cannot acquire it; `at(0)` and
`count(0)` return at once all the same, with the mutex still held by the
`Access` and not by them: they read part 0 without its mutex. -/
theorem at_and_count_take_no_mutex :
    ∃ m1 a, operator_subscript (construct 3 : concurrent_map Int) 0 = some (m1, a) ∧
      held m1 = [0] ∧
      lock m1 0 = none ∧ operator_subscript m1 0 = none ∧ BuildOrdinaryMap m1 = none ∧
      at_ m1 0 = some (m1, Except.ok 0) ∧ count m1 0 = some (m1, true) ∧
      (at_ m1 0).map (fun p => held p.1) = some [0] ∧
      (count m1 0).map (fun p => held p.1) = some [0] :=
  ⟨_, _, rfl, by decide, by decide, by decide, by decide, rfl, by decide, by decide,
    by decide⟩

end concurrent_map

/-! ## Readers and writers of `TestReadAndWrite` -/

namespace TestReadAndWrite

open concurrent_map

theorem pushes_le_two (j : Nat) (hj : j ≤ 2) :
    (fun s : String => s.push 'a')^[j] "" = "" ∨
    (fun s : String => s.push 'a')^[j] "" = "a" ∨
    (fun s : String => s.push 'a')^[j] "" = "aa" := by
  interval_cases j
  · exact Or.inl rfl
  · exact Or.inr (Or.inl rfl)
  · exact Or.inr (Or.inr rfl)

theorem run_observed (schedule : List Step) :
    ∀ (m : concurrent_map String), Inv m →
      (∀ i : Nat, ∃ j, (contents m (i : Int)).getD "" = (fun s : String => s.push 'a')^[j] "" ∧
        j + schedule.count (Step.update i) ≤ 2) →
      ∃ m1 observed, run m schedule = some (m1, observed) ∧
        (∀ s ∈ observed, s = "" ∨ s = "a" ∨ s = "aa") ∧
        observed.length = schedule.countP Step.isRead := by
  induction schedule with
  | nil => exact fun m _ _ => ⟨m, [], rfl, by simp, rfl⟩
  | cons st rest ih =>
    intro m hinv hval
    cases st with
    | update i0 =>
      obtain ⟨m1, hacc, hinv1, _, hcont⟩ :=
        access_spec m hinv (i0 : Int) (fun s => s.push 'a')
      have hval1 : ∀ i : Nat, ∃ j,
          (contents m1 (i : Int)).getD "" = (fun s : String => s.push 'a')^[j] "" ∧
          j + rest.count (Step.update i) ≤ 2 := by
        intro i
        obtain ⟨j, hj, hle⟩ := hval i
        by_cases hi : i = i0
        · subst hi
          rw [List.count_cons_self] at hle
          refine ⟨j + 1, ?_, by omega⟩
          rw [hcont, if_pos rfl, Function.iterate_succ_apply', ← hj]
          rfl
        · have hne : ((i : Int) = (i0 : Int)) ↔ False := by
            constructor
            · intro h
              exact hi (by exact_mod_cast h)
            · exact False.elim
          have hcount : (Step.update i0 :: rest).count (Step.update i)
              = rest.count (Step.update i) := by
            rw [List.count_cons]
            simp [Ne.symm hi]
          rw [hcount] at hle
          refine ⟨j, ?_, hle⟩
          rw [hcont]
          simp only [hne, if_false]
          exact hj
      obtain ⟨m2, observed, hrun, hobs, hlen⟩ := ih m1 hinv1 hval1
      refine ⟨m2, observed, ?_, hobs, ?_⟩
      · simp only [run, hacc, hrun]
      · rw [hlen, List.countP_cons]
        simp [Step.isRead]
    | read i0 =>
      obtain ⟨m1, hacc, hinv1, _, hcont⟩ := access_spec m hinv (i0 : Int) id
      have hval1 : ∀ i : Nat, ∃ j,
          (contents m1 (i : Int)).getD "" = (fun s : String => s.push 'a')^[j] "" ∧
          j + rest.count (Step.update i) ≤ 2 := by
        intro i
        obtain ⟨j, hj, hle⟩ := hval i
        have hcount : (Step.read i0 :: rest).count (Step.update i)
            = rest.count (Step.update i) := by
          rw [List.count_cons]
          simp
        rw [hcount] at hle
        refine ⟨j, ?_, hle⟩
        rw [hcont]
        split_ifs with h1
        · rw [← h1]
          exact hj
        · exact hj
      obtain ⟨m2, observed, hrun, hobs, hlen⟩ := ih m1 hinv1 hval1
      obtain ⟨j0, hj0, hle0⟩ := hval i0
      refine ⟨m2, (contents m (i0 : Int)).getD default :: observed, ?_, ?_, ?_⟩
      · simp only [run, hacc, hrun, id_eq]
      · intro s hs
        rcases List.mem_cons.1 hs with h1 | h1
        · rw [h1]
          have hd : (contents m (i0 : Int)).getD default
              = (fun s : String => s.push 'a')^[j0] "" := hj0
          rw [hd]
          exact pushes_le_two j0 (by omega)
        · exact hobs s h1
      · rw [List.length_cons, hlen, List.countP_cons]
        simp [Step.isRead]

theorem count_update_updater (key_count i : Nat) :
    (updater key_count).count (Step.update i) ≤ 1 := by
  have hnodup : (updater key_count).Nodup := by
    unfold updater
    refine List.Nodup.map ?_ (List.nodup_range key_count)
    intro a b hab
    cases hab
    rfl
  exact List.nodup_iff_count_le_one.1 hnodup _

theorem count_update_readers (readers key_count i : Nat) :
    (List.replicate readers (reader key_count)).flatten.count (Step.update i) = 0 := by
  apply List.count_eq_zero_of_not_mem
  intro hmem
  obtain ⟨w, hw, hi⟩ := List.mem_flatten.1 hmem
  rw [List.eq_of_mem_replicate hw] at hi
  unfold reader at hi
  obtain ⟨j, _, hj⟩ := List.mem_map.1 hi
  cases hj

theorem countP_read_updater (key_count : Nat) :
    (updater key_count).countP Step.isRead = 0 := by
  rw [List.countP_eq_zero]
  intro st hst
  unfold updater at hst
  obtain ⟨j, _, rfl⟩ := List.mem_map.1 hst
  simp [Step.isRead]

theorem countP_read_reader (key_count : Nat) :
    (reader key_count).countP Step.isRead = key_count := by
  have hall : ∀ st ∈ reader key_count,
      Step.isRead st = true := by
    intro st hst
    unfold reader at hst
    obtain ⟨j, _, rfl⟩ := List.mem_map.1 hst
    rfl
  rw [List.countP_eq_length.2 hall]
  simp [reader]

theorem countP_read_readers (readers key_count : Nat) :
    (List.replicate readers (reader key_count)).flatten.countP Step.isRead
      = readers * key_count := by
  induction readers with
  | zero => simp
  | succ r ih =>
    rw [List.replicate_succ, List.flatten_cons, List.countP_append, ih, countP_read_reader]
    ring

/-- C14: read/write interleaving safety. On a newly constructed string-valued
map with `n >= 1` parts, for every interleaving of the steps of two updaters,
each appending one `'a'` to each of the keys `0 .. key_count - 1`, and of any
number of readers, each copying the value of each of these keys through
`operator[]`, the run completes, every reader step has copied a value, and
every value copied is `""`, `"a"` or `"aa"`. -/
theorem read_write_interleaving_safe (n : Nat) (hn : 0 < n) (key_count readers : Nat)
    (schedule : List Step)
    (hs : Interleaving
      ([updater key_count, updater key_count] ++ List.replicate readers (reader key_count))
      schedule) :
    ∃ m observed, run (construct n) schedule = some (m, observed) ∧
      observed.length = readers * key_count ∧
      ∀ s ∈ observed, s = "" ∨ s = "a" ∨ s = "aa" := by
  have hperm := interleaving_perm _ _ hs
  simp only [List.flatten_append, List.flatten_cons, List.flatten_nil, List.append_nil,
    List.append_assoc] at hperm
  have hcount : ∀ i : Nat, schedule.count (Step.update i) ≤ 2 := by
    intro i
    rw [hperm.count_eq, List.count_append, List.count_append, count_update_readers]
    have := count_update_updater key_count i
    omega
  obtain ⟨m, observed, hrun, hobs, hlen⟩ := run_observed schedule (construct n)
    (construct_inv n hn) (fun i => ⟨0, by rw [construct_contents]; rfl, by
      have := hcount i
      omega⟩)
  refine ⟨m, observed, hrun, ?_, hobs⟩
  rw [hlen, hperm.countP_eq, List.countP_append, List.countP_append, countP_read_updater,
    countP_read_readers]
  omega

/-- Witness of C14: five parts, the keys 0 and 1, two updaters and two readers;
the readers copy `""`, `"aa"`, `"a"` and `"aa"`. -/
theorem read_write_interleaving_safe_witness :
    ∃ m observed,
      run (construct 5)
        [Step.read 0, Step.update 0, Step.update 0, Step.read 0, Step.update 1,
          Step.read 1, Step.update 1, Step.read 1] = some (m, observed) ∧
      observed.length = 2 * 2 ∧
      ∀ s ∈ observed, s = "" ∨ s = "a" ∨ s = "aa" :=
  read_write_interleaving_safe 5 (by decide) 2 2
    [Step.read 0, Step.update 0, Step.update 0, Step.read 0, Step.update 1,
      Step.read 1, Step.update 1, Step.read 1]
    (Interleaving.step [[Step.update 0, Step.update 1], [Step.update 0, Step.update 1]]
        [[Step.read 0, Step.read 1]] (Step.read 0) [Step.read 1] _
      (Interleaving.step [] [[Step.update 0, Step.update 1], [Step.read 1],
          [Step.read 0, Step.read 1]] (Step.update 0) [Step.update 1] _
        (Interleaving.step [[Step.update 1]] [[Step.read 1], [Step.read 0, Step.read 1]]
            (Step.update 0) [Step.update 1] _
          (Interleaving.step [[Step.update 1], [Step.update 1], [Step.read 1]] []
              (Step.read 0) [Step.read 1] _
            (Interleaving.step [] [[Step.update 1], [Step.read 1], [Step.read 1]]
                (Step.update 1) [] _
              (Interleaving.step [[], [Step.update 1]] [[Step.read 1]]
                  (Step.read 1) [] _
                (Interleaving.step [[]] [[], [Step.read 1]] (Step.update 1) [] _
                  (Interleaving.step [[], [], []] [] (Step.read 1) [] _
                    (Interleaving.done [[], [], [], []] (by decide))))))))))

end TestReadAndWrite
